import Mathlib

/-!
Verification development for the scoped member-access chain extraction
engine of the assemblyscript-eslint plugin (rule `no-repeated-member-access`).

The repository contains several iterations of the rule.  Two are embedded
here:

* Engine A: the iteration in `src/plugins/rules/memberAccess.ts` that keeps a
  per-scope map from chain strings to `{count, nodes, modified}` records,
  tracks mutations via `trackModification`, and reports the longest valid
  chain (`analyzeChain`, `trackModification`, `processMemberExpression`).

* Engine B: the fixable iteration (in the unnamed sources) whose
  canonicalizer `getObjectChain` drops the last property, keeps static
  literal index segments, skips switch-case tests, and whose `fix`
  generator inserts a `const` declaration and rewrites occurrences whose
  object text equals the chain text.

Representation note: the TypeScript code keys its maps by the dot-joined
chain string (for example "a.b.c").  Property names in non-computed member
accesses are identifiers, so the dot-join is injective on the segment lists
that actually arise; we therefore key maps by the segment list
(`ChainKey := List String`).  Every place where the code inspects the
*string* (its characters, its length, `startsWith`) is modelled by first
rendering the segment list to its character list (`chainChars`), exactly as
the dot-join produces it, so those checks are the checks of the source.
-/

/-- Abstract key of a member access: `obj.name` (static, non-computed),
`obj[lit]` (computed with a `Literal` key, carrying the rendering of the
literal value), or `obj[expr]` (computed with a non-literal key, carrying
the source text of the key expression). -/
inductive PropKey where
  | static (name : String)
  | litIndex (lit : String)
  | dynamic (src : String)
deriving DecidableEq, Repr

/-- The fragment of the TSESTree expression language the rule inspects:
identifiers, `this`, member accesses, non-null assertions (`e!`),
call expressions (callee plus the source text of the argument list), and a
catch-all for any other expression form (carrying its source text). -/
inductive Expr where
  | ident (name : String)
  | thisExpr
  | member (obj : Expr) (key : PropKey)
  | nonNull (e : Expr)
  | call (callee : Expr) (argsSrc : String)
  | other (src : String)
deriving DecidableEq, Repr

/-- Whether a node is a `MemberExpression` (the `node.type === MemberExpression`
checks of the listeners). -/
def Expr.isMember : Expr → Bool
  | .member _ _ => true
  | _ => false

/-- The inner `while (current.type === TSNonNullExpression) current = current.expression`
loop of `analyzeChain` and `getObjectChain`: strip all non-null assertion
wrappers. -/
def stripNonNull : Expr → Expr
  | .nonNull e => stripNonNull e
  | e => e

/-- The source text spanned by a node (`sourceCode.getText(node)`), as the
obvious rendering of the modelled fragment. -/
def exprText : Expr → String
  | .ident n => n
  | .thisExpr => "this"
  | .member o (.static n) => exprText o ++ "." ++ n
  | .member o (.litIndex l) => exprText o ++ "[" ++ l ++ "]"
  | .member o (.dynamic s) => exprText o ++ "[" ++ s ++ "]"
  | .nonNull e => exprText e ++ "!"
  | .call c a => exprText c ++ "(" ++ a ++ ")"
  | .other s => s

/-! ## Engine A: `src/plugins/rules/memberAccess.ts` (map-based iteration)

Chains are kept as their segment lists; `chainChars` renders the dot-joined
string the code actually stores. -/

/-- A chain as its list of segments, root first (for example
`["a", "b", "c"]` for the chain string "a.b.c"). -/
abbrev ChainKey := List String

/-- Characters of the dot-joined chain string: `["a","b"]` renders to
`a.b`.  This is the string the TypeScript code keys its maps by. -/
def chainChars : ChainKey → List Char
  | [] => []
  | [s] => s.data
  | s :: rest => s.data ++ '.' :: chainChars rest

/-- The reverse-order property collection loop of `analyzeChain`, returned
in forward (root-first) order, as entered from an *object* position (where
the loop condition re-checks after stripping non-null assertions).  The loop
pushes `current.property.name` for each non-computed member access, breaks
with `isValid = false` on a computed access, and finally accepts an
`Identifier` or `ThisExpression` root (any other root means
`isValid = false`, hence `null`). -/
def analyzeObjParts : Expr → Option (List String)
  | .nonNull e => analyzeObjParts e
  | .ident n => some [n]
  | .thisExpr => some ["this"]
  | .member obj (.static name) =>
    match analyzeObjParts obj with
    | some ps => some (ps ++ [name])
    | none => none
  | _ => none

/-- The part collection as entered from the top of `analyzeChain`.  The
entry node is not stripped of non-null assertions (the loop only strips them
after the first `current = current.object` step), so a top-level `e!` falls
through the loop and fails the root check. -/
def analyzeParts (e : Expr) : Option (List String) :=
  match e with
  | .nonNull _ => none
  | e => analyzeObjParts e

/-- The hierarchy built from the forward-order parts: element `i` is the
chain of the first `i + 1` parts (the code builds
`["a", "a.b", "a.b.c"]` by string concatenation). -/
def hierList (ps : List String) : List ChainKey :=
  (List.range ps.length).map (fun i => ps.take (i + 1))

/-- Result of `analyzeChain`: the hierarchy and the full chain
(`hierarchy.at(-1) ?? ""`). -/
structure ChainInfo where
  hierarchy : List ChainKey
  fullChain : ChainKey
deriving DecidableEq, Repr

/-- `analyzeChain` of the map-based iteration: collect the parts, reject the
chain when `!isValid || parts.length < 2`, otherwise return the hierarchy and
the full chain. -/
def analyzeChain (e : Expr) : Option ChainInfo :=
  match analyzeParts e with
  | none => none
  | some parts =>
    if parts.length < 2 then none
    else some ⟨hierList parts, (hierList parts).getLastD []⟩

/-- A chain record of the scope data map:
`{ count: number; nodes: TSESTree.MemberExpression[]; modified: boolean }`.
Occurrence nodes are identified by the numeric ids the driver assigns. -/
structure Record where
  count : Nat
  nodes : List Nat
  modified : Bool
deriving DecidableEq, Repr

/-- The fresh record `{ count: 0, nodes: [], modified: false }` used when a
chain has no entry yet. -/
def defaultRec : Record := ⟨0, [], false⟩

/-- `Map.get` on an association list (JS `Map` keyed by strings or by the
scope object). -/
def alookup {α : Type} {β : Type} [DecidableEq α] : List (α × β) → α → Option β
  | [], _ => none
  | (k, v) :: rest, a => if k = a then some v else alookup rest a

/-- `Map.set` on an association list: replace in place, or append a new
entry (JS `Map.set` keeps insertion order). -/
def aset {α : Type} {β : Type} [DecidableEq α] : List (α × β) → α → β → List (α × β)
  | [], a, v => [(a, v)]
  | (k, v') :: rest, a, v =>
    if k = a then (k, v) :: rest else (k, v') :: aset rest a v

/-- Per-scope chain map, as an association list keyed by the chain. -/
abbrev ScopeChains := List (ChainKey × Record)

/-- A record with its `modified` flag set (`record.modified = true`). -/
def markRec (r : Record) : Record := ⟨r.count, r.nodes, true⟩

/-- The matching condition of `trackModification`:
`existingChain === chain || existingChain.startsWith(chain + ".") ||
existingChain.startsWith(chain + "[")`, evaluated on the rendered chain
strings exactly as the code does. -/
def chainMatches (existing chain : ChainKey) : Bool :=
  chainChars existing == chainChars chain
    || List.isPrefixOf (chainChars chain ++ ['.']) (chainChars existing)
    || List.isPrefixOf (chainChars chain ++ ['[']) (chainChars existing)

/-- The `for (const [existingChain, record] of scopeData.chains)` marking
loop of `trackModification`: set `record.modified = true` on every entry
whose chain matches. -/
def markMatching (chain : ChainKey) (sd : ScopeChains) : ScopeChains :=
  sd.map (fun kr => if chainMatches kr.1 chain then (kr.1, markRec kr.2) else kr)

/-- `trackModification` of the map-based iteration: mark every existing
chain that equals the modified chain or extends it past a `.` or `[` as
modified, then ensure the exact chain has a record and that it is marked
modified (creating `{count: 0, nodes: [], modified: true}` if absent). -/
def trackModification (chain : ChainKey) (sd : ScopeChains) : ScopeChains :=
  match alookup (markMatching chain sd) chain with
  | some r => aset (markMatching chain sd) chain (markRec r)
  | none => markMatching chain sd ++ [(chain, ⟨0, [], true⟩)]

/-- The per-hierarchy-element loop of `processMemberExpression`: skip
single-level chains (no `.` in the chain string), skip chains containing an
array access (`[` and `]` both present), skip modified records; otherwise
increment the count, append the occurrence node, store the record, and
remember the chain as the longest valid one when its count reached the
threshold and its string is strictly longer. -/
def procLoop (minOcc nodeId : Nat) :
    List ChainKey → ScopeChains → ChainKey → ScopeChains × ChainKey
  | [], sd, longest => (sd, longest)
  | c :: rest, sd, longest =>
    if !((chainChars c).contains '.') then
      procLoop minOcc nodeId rest sd longest
    else if (chainChars c).contains '[' && (chainChars c).contains ']' then
      procLoop minOcc nodeId rest sd longest
    else
      let r := (alookup sd c).getD defaultRec
      if r.modified then
        procLoop minOcc nodeId rest sd longest
      else
        let r' : Record := ⟨r.count + 1, r.nodes ++ [nodeId], r.modified⟩
        let sd' := aset sd c r'
        let longest' :=
          if minOcc ≤ r'.count ∧ (chainChars longest).length < (chainChars c).length
          then c else longest
        procLoop minOcc nodeId rest sd' longest'

/-- A reported diagnostic: the scope, the offending chain, the anchor node
(`record.nodes[0]`) and the count reported in the message data. -/
structure Diag where
  scope : Nat
  chain : ChainKey
  anchor : Nat
  count : Nat
deriving DecidableEq, Repr

/-- Engine A state: the per-scope chain maps (`scopeDataMap`), the global
`reportedChains` set, and the emitted diagnostics in emission order. -/
structure St where
  scopes : List (Nat × ScopeChains)
  reported : List ChainKey
  diags : List Diag
deriving DecidableEq, Repr

/-- The record of chain `c` in scope `s` (absent scopes have no records). -/
def recOf (st : St) (s : Nat) (c : ChainKey) : Option Record :=
  match alookup st.scopes s with
  | none => none
  | some sd => alookup sd c

/-- `processMemberExpression`: skip nodes that are part of larger member
expressions, canonicalize, update every hierarchy level, then report the
longest valid chain unless it was reported before (anchored at
`record.nodes[0]`, with `record.count` in the message data). -/
def processMemberExpression (minOcc : Nat) (s nodeId : Nat) (parentIsMember : Bool)
    (e : Expr) (st : St) : St :=
  if parentIsMember then st
  else
    match analyzeChain e with
    | none => st
    | some ci =>
      let sd := (alookup st.scopes s).getD []
      let res := procLoop minOcc nodeId ci.hierarchy sd []
      let scopes' := aset st.scopes s res.1
      if !(chainChars res.2).isEmpty && !(st.reported.contains res.2) then
        let rec2 := (alookup res.1 res.2).getD defaultRec
        { scopes := scopes'
          reported := st.reported ++ [res.2]
          diags := st.diags ++ [⟨s, res.2, rec2.nodes.getD 0 0, rec2.count⟩] }
      else
        { st with scopes := scopes' }

/-- The shared body of the `AssignmentExpression`, `UpdateExpression` and
`CallExpression` listeners: when the target node is a member expression and
canonicalizes, call `trackModification` for every hierarchy element. -/
def handleMut (s : Nat) (e : Expr) (st : St) : St :=
  if e.isMember then
    match analyzeChain e with
    | some ci =>
      let sd := (alookup st.scopes s).getD []
      let sd' := ci.hierarchy.foldl (fun acc c => trackModification c acc) sd
      { st with scopes := aset st.scopes s sd' }
    | none => st
  else st

/-- Driver events, in document order: an (outermost unless `parentIsMember`)
member-expression visit, an assignment with the given left-hand side, an
increment/decrement of the given argument, or a call with the given callee.
Each event carries the id of the lexical scope that `sourceCode.getScope`
returns for its node; occurrences also carry a numeric node id. -/
inductive Ev where
  | occ (s : Nat) (nodeId : Nat) (e : Expr) (parentIsMember : Bool)
  | assign (s : Nat) (lhs : Expr)
  | upd (s : Nat) (arg : Expr)
  | call (s : Nat) (callee : Expr)
deriving DecidableEq, Repr

/-- One traversal callback of engine A. -/
def stepA (minOcc : Nat) (st : St) : Ev → St
  | .occ s i e pim => processMemberExpression minOcc s i pim e st
  | .assign s lhs => handleMut s lhs st
  | .upd s arg => handleMut s arg st
  | .call s callee => handleMut s callee st

/-- A full traversal of engine A over an event list. -/
def runA (minOcc : Nat) (st : St) (evs : List Ev) : St :=
  evs.foldl (stepA minOcc) st

/-- The state at the start of a lint run. -/
def initSt : St := ⟨[], [], []⟩

/-- The scope an event is processed in. -/
def Ev.scope : Ev → Nat
  | .occ s _ _ _ => s
  | .assign s _ => s
  | .upd s _ => s
  | .call s _ => s

/-- The occurrence node ids an event can contribute to occurrence lists. -/
def evOccIds : Ev → List Nat
  | .occ _ i _ _ => [i]
  | _ => []

/-- All occurrence node ids of a trace. -/
def occIds (evs : List Ev) : List Nat :=
  evs.flatMap evOccIds

/-- Whether any access along the member-access spine of a node is computed
(`current.computed` true at some iteration of the collection loop), as seen
from an object position. -/
def spineObjHasComputed : Expr → Bool
  | .nonNull e => spineObjHasComputed e
  | .member _ (.litIndex _) => true
  | .member _ (.dynamic _) => true
  | .member obj (.static _) => spineObjHasComputed obj
  | _ => false

/-- The node at which the collection loop of `analyzeChain` stops: the
member expression itself for a computed access, otherwise the (non-null
stripped) object reached by walking through static accesses. -/
def chainObjRoot : Expr → Expr
  | .nonNull e => chainObjRoot e
  | .member obj (.static _) => chainObjRoot obj
  | e => e

/-- The root the loop stops at when entered from the top (the entry node is
not stripped of non-null assertions). -/
def chainRoot (e : Expr) : Expr :=
  match e with
  | .nonNull _ => e
  | e => chainObjRoot e

/-- Whether the loop's stopping node passes the root check
(`Identifier` or `ThisExpression`). -/
def isPlainRoot : Expr → Bool
  | .ident _ => true
  | .thisExpr => true
  | _ => false



/-! ## Engine B: the fixable iteration (unnamed sources, `getObjectChain`)

This iteration canonicalizes the *object* part of the outermost member
expression (dropping the last property), keeps static literal index
segments (`obj[0]` gives a `[0]` segment), rejects dynamic keys, skips
accesses inside switch-case tests, applies a capitalized-root heuristic,
counts occurrences per `(scope range, chain)` key, reports whenever the
count reaches the threshold, and offers a lazily materialized fix. -/

/-- One segment of a `getObjectChain` path: `.name` for static property
access, `[lit]` for a computed access whose key is a `Literal`. -/
inductive Seg where
  | dot (name : String)
  | idx (lit : String)
deriving DecidableEq, Repr

/-- A chain as `getObjectChain` returns it: the base (root) name followed by
the kept segments.  The joined string is `root ++ segments`, in which form
the code stores and compares it. -/
structure ChainB where
  root : String
  segs : List Seg
deriving DecidableEq, Repr

/-- Characters contributed by one segment to the joined chain string. -/
def segChars : Seg → List Char
  | .dot n => '.' :: n.data
  | .idx l => '[' :: l.data ++ [']']

/-- Characters of the joined chain string (`path.join("")` — the root is the
first element, so the leading-dot strip `replace(/^\./, "")` never fires). -/
def chainBChars (c : ChainB) : List Char :=
  c.root.data ++ (c.segs.map segChars).flatten

/-- The joined chain string itself (used for text comparison against node
source text and for the generated declaration). -/
def chainBStr (c : ChainB) : String :=
  String.mk (chainBChars c)

/-- The capitalized-base heuristic:
`baseName.length > 0 && baseName[0] === baseName[0].toUpperCase()` —
bases that look like an enum or static class are skipped. -/
def looksCapitalized (n : String) : Bool :=
  match n.data with
  | [] => false
  | c :: _ => c == c.toUpper

/-- One ancestor of the visited node, as far as the switch-case check is
concerned: `switchTest` marks an ancestor that is a `SwitchCase` whose
(non-null) `test` subtree contains the node (the code detects this with
`node === parent.test || isDescendant(node, parent.test)` while walking the
parent chain); every other ancestor is `plain`. -/
inductive Anc where
  | switchTest
  | plain
deriving DecidableEq, Repr

/-- The main collection loop of `getObjectChain`, processing the *object*
of an already-processed member access: strip non-null assertions, continue
through member accesses (keeping `.name` and `[literal]` segments, failing
on a dynamic key), and finish at the root.  `seg :: path` is the list of
segments collected so far (deepest first), of which the code pops the last
(the outermost property) before joining. -/
def walkB : Expr → Seg → List Seg → Option ChainB
  | .nonNull e, seg, path => walkB e seg path
  | .member obj key, seg, path =>
    match key with
    | .static n => walkB obj (Seg.dot n) (seg :: path)
    | .litIndex l => walkB obj (Seg.idx l) (seg :: path)
    | .dynamic _ => none
  | .thisExpr, seg, path =>
    if (seg :: path).length + 1 ≤ 2 then none
    else some ⟨"this", (seg :: path).dropLast⟩
  | .ident n, seg, path =>
    if looksCapitalized n then none
    else some ⟨n, (seg :: path).dropLast⟩
  | _, _, _ => none

/-- Entry into the collection loop: the loop condition also admits a
non-null assertion wrapper; the first real iteration must be a member
access (a bare identifier or `this` at the top never enters the loop and
the function falls through to its final `return null`). -/
def entryWalk : Expr → Option ChainB
  | .nonNull e => entryWalk e
  | .member obj key =>
    match key with
    | .static n => walkB obj (Seg.dot n) []
    | .litIndex l => walkB obj (Seg.idx l) []
    | .dynamic _ => none
  | _ => none

/-- `getObjectChain`: reject accesses inside a switch-case test, then run
the collection loop. -/
def getObjectChain (ancs : List Anc) (e : Expr) : Option ChainB :=
  if ancs.contains Anc.switchTest then none else entryWalk e

/-- A member-expression visit of engine B: the scope id (standing for the
`scope.block.range` part of the key), a numeric node id, the id of the
nearest enclosing statement that is a direct child of a
Program/BlockStatement/StaticBlock/SwitchCase (the insertion anchor the fix
walks to), the ancestor description for the switch-case check, the node
itself, and whether its parent is a member expression. -/
structure EvB where
  s : Nat
  nodeId : Nat
  stmt : Nat
  ancs : List Anc
  e : Expr
  parentIsMember : Bool
deriving DecidableEq, Repr

/-- Key of the occurrence and node maps:
`` `${scope.block.range.join("-")}-${objectChain}` ``. -/
abbrev KeyB := Nat × ChainB

/-- A diagnostic of engine B (`repeatedAccess` report): scope, chain, the
count at report time, and the reporting node. -/
structure DiagB where
  scope : Nat
  chain : ChainB
  count : Nat
  nodeId : Nat
deriving DecidableEq, Repr

/-- Engine B state: `chainNodesMap`, `occurrences`, and the reports made so
far. -/
structure StB where
  chainNodes : List (KeyB × List EvB)
  occurrences : List (KeyB × Nat)
  diags : List DiagB
deriving DecidableEq, Repr

/-- The empty engine B state. -/
def initStB : StB := ⟨[], [], []⟩

/-- The `MemberExpression` listener of engine B: skip inner member
expressions, canonicalize, skip when the chain equals its base object name
(no segments kept), record the node, bump the count, and report whenever
`count >= minOccurrences`. -/
def stepB (minOcc : Nat) (st : StB) (ev : EvB) : StB :=
  if ev.parentIsMember then st
  else
    match getObjectChain ev.ancs ev.e with
    | none => st
    | some c =>
      if c.segs.isEmpty then st
      else
        let key : KeyB := (ev.s, c)
        let nodes := (alookup st.chainNodes key).getD [] ++ [ev]
        let cnt := (alookup st.occurrences key).getD 0 + 1
        let st' : StB := ⟨aset st.chainNodes key nodes, aset st.occurrences key cnt, st.diags⟩
        if minOcc ≤ cnt then
          { st' with diags := st'.diags ++ [⟨ev.s, c, cnt, ev.nodeId⟩] }
        else st'

/-- A full traversal of engine B. -/
def runB (minOcc : Nat) (st : StB) (evs : List EvB) : StB :=
  evs.foldl (stepB minOcc) st

/-! ### The fix generator of engine B -/

/-- One character of `objectChain.replace(/[^a-zA-Z0-9_]/g, "_")`. -/
def sanitizeChar (c : Char) : Char :=
  if c.isAlphanum || c = '_' then c else '_'

/-- `objectChain.replace(/[^a-zA-Z0-9_]/g, "_")`. -/
def sanitize (s : String) : String :=
  String.mk (s.data.map sanitizeChar)

/-- `memberNode.object`. -/
def objectOf : Expr → Expr
  | .member o _ => o
  | e => e

/-- The materialized fix of a diagnostic: the generated binding name, whether
the declaration was inserted, the statement it was inserted before (the
enclosing statement of the first recorded occurrence), and the recorded
occurrences whose object text matched the chain text and were therefore
replaced (all others are skipped silently). -/
structure FixB where
  varName : String
  didInsert : Bool
  insertBefore : Option Nat
  replaced : List EvB
deriving DecidableEq, Repr

/-- The `*fix(fixer)` generator: read the recorded nodes for the key (give
up unless at least `minOccurrences` of them exist), build the safe variable
name, insert `const name = chain;` before the first occurrence's statement
unless a variable of that name already exists in the scope, and replace
the object of every recorded node whose object text still equals the chain
text. -/
def materializeFix (minOcc : Nat) (st : StB) (key : KeyB)
    (scopeVars : List String) : Option FixB :=
  let nodes := (alookup st.chainNodes key).getD []
  if nodes.length < minOcc then none
  else
    let safeVarName := "_" ++ sanitize (chainBStr key.2)
    let variableExists := scopeVars.contains safeVarName
    some ⟨safeVarName,
          !variableExists,
          if variableExists then none else nodes.head?.map (·.stmt),
          nodes.filter (fun n => exprText (objectOf n.e) == chainBStr key.2)⟩

/-! ### Applying a fix at the program level

Applying the text edits and re-parsing is modelled on the event list: the
replaced object subexpression re-parses as the plain identifier
`safeVarName`, and the inserted declaration `const name = chain;`
contributes one additional outermost member-expression visit whose node is
the re-parse of the chain text. -/

/-- `fixer.replaceText(memberNode.object, safeVarName)`: after the edit the
node re-parses as a member access of the identifier `safeVarName` with the
same trailing property key. -/
def replaceObject (v : String) : Expr → Expr
  | .member _ k => .member (.ident v) k
  | e => e

/-- The per-event effect of applying a fix for chain `c` in scope `s`: an
event is rewritten exactly when it is one of the recorded occurrences of the
key (an outermost member expression canonicalizing to `c` in scope `s`)
whose object text equals the chain text — the condition under which the fix
emitted a replacement for it. -/
def applyFixEv (s : Nat) (c : ChainB) (v : String) (ev : EvB) : EvB :=
  if !ev.parentIsMember && ev.s == s && getObjectChain ev.ancs ev.e == some c
      && exprText (objectOf ev.e) == chainBStr c then
    { ev with e := replaceObject v ev.e }
  else ev

/-- Re-parse of the chain text, as it appears as the initializer of the
inserted declaration. -/
def chainToExpr (c : ChainB) : Expr :=
  c.segs.foldl
    (fun acc sg =>
      match sg with
      | .dot n => .member acc (.static n)
      | .idx l => .member acc (.litIndex l))
    (if c.root = "this" then Expr.thisExpr else .ident c.root)

/-- The member-expression visit contributed by the inserted declaration
`const name = chain;` (a statement-level node: not inside any switch-case
test, not part of a larger member expression). -/
def declEv (s nodeId stmt : Nat) (c : ChainB) : EvB :=
  ⟨s, nodeId, stmt, [], chainToExpr c, false⟩

/-! ## Association list lemmas -/

theorem alookup_aset_self {α β : Type} [DecidableEq α] (m : List (α × β)) (k : α) (v : β) :
    alookup (aset m k v) k = some v := by
  induction m with
  | nil => simp [aset, alookup]
  | cons kv rest ih =>
    obtain ⟨k', v'⟩ := kv
    by_cases h : k' = k
    · simp [aset, alookup, h]
    · simp [aset, alookup, h, ih]

theorem alookup_aset_ne {α β : Type} [DecidableEq α] (m : List (α × β)) (k a : α) (v : β)
    (h : a ≠ k) : alookup (aset m k v) a = alookup m a := by
  induction m with
  | nil => simp [aset, alookup, Ne.symm h]
  | cons kv rest ih =>
    obtain ⟨k', v'⟩ := kv
    by_cases hk : k' = k
    · subst hk
      simp [aset, alookup, Ne.symm h]
    · simp [aset, alookup, hk, ih]

theorem aset_eq_of_alookup {α β : Type} [DecidableEq α] (m : List (α × β)) (k : α) (v : β)
    (h : alookup m k = some v) : aset m k v = m := by
  induction m with
  | nil => simp [alookup] at h
  | cons kv rest ih =>
    obtain ⟨k', v'⟩ := kv
    by_cases hk : k' = k
    · subst hk
      simp [alookup] at h
      simp [aset, h]
    · simp [alookup, hk] at h
      simp [aset, hk, ih h]

theorem alookup_map_val {α β : Type} [DecidableEq α] (m : List (α × β)) (g : α → β → β) (a : α) :
    alookup (m.map (fun kv => (kv.1, g kv.1 kv.2))) a = (alookup m a).map (g a) := by
  induction m with
  | nil => simp [alookup]
  | cons kv rest ih =>
    obtain ⟨k', v'⟩ := kv
    by_cases hk : k' = a
    · subst hk
      simp [alookup]
    · simp [alookup, hk, ih]

theorem alookup_append_right {α β : Type} [DecidableEq α] (m m' : List (α × β)) (a : α)
    (h : alookup m a = none) : alookup (m ++ m') a = alookup m' a := by
  induction m with
  | nil => simp
  | cons kv rest ih =>
    obtain ⟨k', v'⟩ := kv
    by_cases hk : k' = a
    · simp [alookup, hk] at h
    · simp [alookup, hk] at h ⊢
      exact ih h

theorem alookup_append_left {α β : Type} [DecidableEq α] (m m' : List (α × β)) (a : α) (v : β)
    (h : alookup m a = some v) : alookup (m ++ m') a = some v := by
  induction m with
  | nil => simp [alookup] at h
  | cons kv rest ih =>
    obtain ⟨k', v'⟩ := kv
    by_cases hk : k' = a
    · simp [alookup, hk] at h ⊢
      exact h
    · simp [alookup, hk] at h ⊢
      exact ih h

/-! ## Chain string lemmas -/

theorem chainChars_cons (s : String) (rest : List String) (h : rest ≠ []) :
    chainChars (s :: rest) = s.data ++ '.' :: chainChars rest := by
  cases rest with
  | nil => exact absurd rfl h
  | cons t r => simp [chainChars]

theorem chainChars_append (xs ys : List String) (hx : xs ≠ []) (hy : ys ≠ []) :
    chainChars (xs ++ ys) = chainChars xs ++ '.' :: chainChars ys := by
  induction xs with
  | nil => exact absurd rfl hx
  | cons x xs ih =>
    cases xs with
    | nil =>
      cases ys with
      | nil => exact absurd rfl hy
      | cons y ys => simp [chainChars]
    | cons x' xs' =>
      rw [List.cons_append, chainChars_cons x _ (by simp), ih (by simp),
        chainChars_cons x (x' :: xs') (by simp)]
      simp

theorem chainChars_contains_dot (s t : String) (rest : List String) :
    (chainChars (s :: t :: rest)).contains '.' = true := by
  rw [chainChars_cons s (t :: rest) (by simp)]
  simp [List.elem_iff]

theorem chainChars_len_lt (xs ys : List String) (hx : xs ≠ []) (hy : ys ≠ []) :
    (chainChars xs).length < (chainChars (xs ++ ys)).length := by
  rw [chainChars_append xs ys hx hy]
  simp

theorem mem_chainChars (c : ChainKey) (x : Char) (h : x ∈ chainChars c) :
    x = '.' ∨ ∃ s ∈ c, x ∈ s.data := by
  induction c with
  | nil => simp [chainChars] at h
  | cons s rest ih =>
    cases rest with
    | nil =>
      simp [chainChars] at h
      exact Or.inr ⟨s, by simp, h⟩
    | cons t r =>
      rw [chainChars_cons s (t :: r) (by simp)] at h
      rcases List.mem_append.mp h with h1 | h2
      · exact Or.inr ⟨s, by simp, h1⟩
      · rcases List.mem_cons.mp h2 with h3 | h4
        · exact Or.inl h3
        · rcases ih h4 with h5 | ⟨u, hu, hx⟩
          · exact Or.inl h5
          · exact Or.inr ⟨u, by simp [hu], hx⟩

theorem chainChars_not_contains (c : ChainKey) (x : Char) (hx : x ≠ '.')
    (h : ∀ s ∈ c, x ∉ s.data) : (chainChars c).contains x = false := by
  rw [Bool.eq_false_iff]
  intro hc
  rcases mem_chainChars c x (List.elem_iff.mp hc) with h1 | ⟨s, hs, hm⟩
  · exact hx h1
  · exact h s hs hm

theorem chainChars_single_not_dot (s : String) (h : '.' ∉ s.data) :
    (chainChars [s]).contains '.' = false := by
  rw [Bool.eq_false_iff]
  intro hc
  exact h (List.elem_iff.mp hc)

theorem chainChars_dotted_ne_nil (s t : String) (rest : List String) :
    (chainChars (s :: t :: rest)).isEmpty = false := by
  have h := chainChars_contains_dot s t rest
  cases hc : chainChars (s :: t :: rest) with
  | nil => rw [hc] at h; simp [List.contains] at h
  | cons a l => simp

/-! ## Hierarchy lemmas -/

theorem mem_hierList (ps : List String) (c : ChainKey) (h : c ∈ hierList ps) :
    ∃ i, i < ps.length ∧ c = ps.take (i + 1) := by
  simp only [hierList, List.mem_map, List.mem_range] at h
  obtain ⟨i, hi, hc⟩ := h
  exact ⟨i, hi, hc.symm⟩

theorem hierList_getLastD (ps : List String) (h : ps ≠ []) :
    (hierList ps).getLastD [] = ps := by
  have hl : ps.length ≠ 0 := by simpa using h
  obtain ⟨m, hm⟩ : ∃ m, ps.length = m + 1 := ⟨ps.length - 1, by omega⟩
  rw [List.getLastD_eq_getLast?, hierList, List.getLast?_map, hm]
  have h1 : (List.range (m + 1)).getLast? = some m := by
    rw [List.getLast?_range]; simp
  rw [h1]
  have h2 : Option.getD (Option.map (fun i => ps.take (i + 1)) (some m)) []
      = ps.take (m + 1) := rfl
  rw [h2, show m + 1 = ps.length from hm.symm, List.take_length]

theorem nodup_hierList (ps : List String) : (hierList ps).Nodup := by
  refine List.Nodup.map_on ?_ (List.nodup_range ps.length)
  intro i hi j hj hf
  rw [List.mem_range] at hi hj
  have h1 := List.length_take (i + 1) ps
  have h2 := List.length_take (j + 1) ps
  rw [hf] at h1
  rw [h1] at h2
  omega

theorem hierList_cons (p : String) (rest : List String) :
    hierList (p :: rest) = [p] :: (List.range rest.length).map (fun i => (p :: rest).take (i + 2)) := by
  simp only [hierList, List.length_cons, List.range_succ_eq_map, List.map_cons, List.map_map]
  constructor

/-! ## Canonicalization rejection lemmas (engine A) -/

theorem analyzeObjParts_eq_none_of_root (e : Expr)
    (h : isPlainRoot (chainObjRoot e) = false) : analyzeObjParts e = none := by
  induction e with
  | nonNull e ih =>
    simp only [chainObjRoot] at h
    simp only [analyzeObjParts]
    exact ih h
  | ident n => simp [chainObjRoot, isPlainRoot] at h
  | thisExpr => simp [chainObjRoot, isPlainRoot] at h
  | member obj key ih =>
    cases key with
    | static n =>
      simp only [chainObjRoot] at h
      simp only [analyzeObjParts, ih h]
    | litIndex l => simp [analyzeObjParts]
    | dynamic s => simp [analyzeObjParts]
  | call c a ihc => simp [analyzeObjParts]
  | other s => simp [analyzeObjParts]

theorem analyzeObjParts_eq_none_of_computed (e : Expr)
    (h : spineObjHasComputed e = true) : analyzeObjParts e = none := by
  induction e with
  | nonNull e ih =>
    simp only [spineObjHasComputed] at h
    simp only [analyzeObjParts]
    exact ih h
  | ident n => simp [spineObjHasComputed] at h
  | thisExpr => simp [spineObjHasComputed] at h
  | member obj key ih =>
    cases key with
    | static n =>
      simp only [spineObjHasComputed] at h
      simp only [analyzeObjParts, ih h]
    | litIndex l => simp [analyzeObjParts]
    | dynamic s => simp [analyzeObjParts]
  | call c a ihc => simp [spineObjHasComputed] at h
  | other s => simp [spineObjHasComputed] at h

theorem analyzeChain_eq_none_of_parts (e : Expr) (h : analyzeParts e = none) :
    analyzeChain e = none := by
  simp [analyzeChain, h]

/-! ## `trackModification` characterization -/

theorem chainMatches_refl (c : ChainKey) : chainMatches c c = true := by
  simp [chainMatches]

theorem markRec_markRec (r : Record) : markRec (markRec r) = markRec r := rfl

theorem markRec_of_modified (r : Record) (h : r.modified = true) : markRec r = r := by
  cases r with
  | mk c n m =>
    have h' : m = true := h
    subst h'
    rfl

theorem alookup_markMatching (c : ChainKey) (sd : ScopeChains) (a : ChainKey) :
    alookup (markMatching c sd) a
      = (alookup sd a).map (fun r => if chainMatches a c then markRec r else r) := by
  have hfun : (fun kr : ChainKey × Record =>
      if chainMatches kr.1 c then (kr.1, markRec kr.2) else kr)
      = (fun kr : ChainKey × Record =>
        (kr.1, if chainMatches kr.1 c then markRec kr.2 else kr.2)) := by
    funext kr
    by_cases h : chainMatches kr.1 c <;> simp [h]
  rw [markMatching, hfun]
  exact alookup_map_val sd (fun k r => if chainMatches k c then markRec r else r) a

theorem alookup_trackModification (c : ChainKey) (sd : ScopeChains) (d : ChainKey) :
    alookup (trackModification c sd) d =
      match alookup sd d with
      | some r => some (if chainMatches d c then markRec r else r)
      | none => if d = c then some ⟨0, [], true⟩ else none := by
  rw [trackModification]
  cases hc : alookup sd c with
  | some r =>
    rw [alookup_markMatching, hc]
    simp only [Option.map_some', chainMatches_refl, if_pos]
    by_cases hd : d = c
    · subst hd
      rw [alookup_aset_self, hc]
      simp [chainMatches_refl, markRec_markRec]
    · rw [alookup_aset_ne _ _ _ _ hd, alookup_markMatching]
      cases alookup sd d <;> simp [hd]
  | none =>
    rw [alookup_markMatching, hc]
    simp only [Option.map_none']
    cases hd : alookup sd d with
    | some r =>
      have hlm : alookup (markMatching c sd) d
          = some (if chainMatches d c then markRec r else r) := by
        simp [alookup_markMatching, hd]
      rw [alookup_append_left _ _ _ _ hlm]
    | none =>
      have hlm : alookup (markMatching c sd) d = none := by
        simp [alookup_markMatching, hd]
      rw [alookup_append_right _ _ _ hlm]
      by_cases hdc : d = c
      · subst hdc
        simp [alookup]
      · simp only [alookup]
        rw [if_neg (fun hh => hdc hh.symm), if_neg hdc]

/-! ## Fold lemmas for mutation handling -/

theorem foldl_trackModification_preserve (hier : List ChainKey) (sd : ScopeChains)
    (d : ChainKey) (r : Record) (h : alookup sd d = some r) (hm : r.modified = true) :
    alookup (hier.foldl (fun acc c => trackModification c acc) sd) d = some r := by
  induction hier generalizing sd with
  | nil => exact h
  | cons c rest ih =>
    have h' : alookup (trackModification c sd) d = some r := by
      rw [alookup_trackModification, h]
      by_cases hmc : chainMatches d c
      · simp [hmc, markRec_of_modified r hm]
      · simp [hmc]
    exact ih _ h'

theorem alookup_trackModification_some (c : ChainKey) (sd : ScopeChains) (d : ChainKey)
    (r : Record) (h : alookup sd d = some r) :
    alookup (trackModification c sd) d
      = some (if chainMatches d c then markRec r else r) := by
  rw [alookup_trackModification, h]

theorem alookup_trackModification_none (c : ChainKey) (sd : ScopeChains) (d : ChainKey)
    (h : alookup sd d = none) :
    alookup (trackModification c sd) d
      = if d = c then some ⟨0, [], true⟩ else none := by
  rw [alookup_trackModification, h]

theorem trackModification_modified_invariant (c : ChainKey) (sd : ScopeChains) (d : ChainKey)
    (h : ∀ r, alookup sd d = some r → r.modified = true) :
    ∀ r, alookup (trackModification c sd) d = some r → r.modified = true := by
  intro r hr
  cases hd : alookup sd d with
  | some r0 =>
    rw [alookup_trackModification_some c sd d r0 hd] at hr
    by_cases hmc : chainMatches d c
    · rw [if_pos hmc] at hr
      cases hr
      rfl
    · rw [if_neg hmc] at hr
      have hr' : r0 = r := Option.some_inj.mp hr
      exact hr' ▸ h r0 hd
  | none =>
    rw [alookup_trackModification_none c sd d hd] at hr
    by_cases hdc : d = c
    · rw [if_pos hdc] at hr
      cases hr
      rfl
    · rw [if_neg hdc] at hr
      exact Option.noConfusion hr

theorem foldl_trackModification_modified_invariant (hier : List ChainKey) (sd : ScopeChains)
    (d : ChainKey) (h : ∀ r, alookup sd d = some r → r.modified = true) :
    ∀ r, alookup (hier.foldl (fun acc c => trackModification c acc) sd) d = some r →
      r.modified = true := by
  induction hier generalizing sd with
  | nil => exact h
  | cons c rest ih =>
    exact ih _ (trackModification_modified_invariant c sd d h)

theorem foldl_trackModification_marks (hier : List ChainKey) (sd : ScopeChains) (d : ChainKey)
    (hex : ∃ hc ∈ hier, chainMatches d hc = true) :
    ∀ r, alookup (hier.foldl (fun acc c => trackModification c acc) sd) d = some r →
      r.modified = true := by
  induction hier generalizing sd with
  | nil => simp at hex
  | cons c rest ih =>
    obtain ⟨hc, hmem, hmatch⟩ := hex
    rcases List.mem_cons.mp hmem with rfl | hmem'
    · have base : ∀ r, alookup (trackModification hc sd) d = some r → r.modified = true := by
        intro r hr
        cases hd : alookup sd d with
        | some r0 =>
          rw [alookup_trackModification_some hc sd d r0 hd, if_pos hmatch] at hr
          cases hr
          rfl
        | none =>
          rw [alookup_trackModification_none hc sd d hd] at hr
          by_cases hdc : d = hc
          · rw [if_pos hdc] at hr
            cases hr
            rfl
          · rw [if_neg hdc] at hr
            exact Option.noConfusion hr
      exact foldl_trackModification_modified_invariant rest _ d base
    · exact ih _ ⟨hc, hmem', hmatch⟩

theorem trackModification_self (c : ChainKey) (sd : ScopeChains) :
    ∃ r, alookup (trackModification c sd) c = some r ∧ r.modified = true := by
  cases h : alookup sd c with
  | some r =>
    refine ⟨markRec r, ?_, rfl⟩
    rw [alookup_trackModification_some c sd c r h, if_pos (chainMatches_refl c)]
  | none =>
    refine ⟨⟨0, [], true⟩, ?_, rfl⟩
    rw [alookup_trackModification_none c sd c h, if_pos rfl]

theorem foldl_trackModification_self (hier : List ChainKey) (sd : ScopeChains)
    (h : ChainKey) (hmem : h ∈ hier) :
    ∃ r, alookup (hier.foldl (fun acc c => trackModification c acc) sd) h = some r
      ∧ r.modified = true := by
  obtain ⟨pre, post, rfl⟩ := List.append_of_mem hmem
  rw [List.foldl_append]
  obtain ⟨r, hr, hm⟩ :=
    trackModification_self h (pre.foldl (fun acc c => trackModification c acc) sd)
  refine ⟨r, ?_, hm⟩
  rw [List.foldl_cons]
  exact foldl_trackModification_preserve post _ h r hr hm

theorem foldl_trackModification_none (cs : List ChainKey) (sd : ScopeChains) (h : ChainKey)
    (hne : ∀ c ∈ cs, c ≠ h) (habs : alookup sd h = none) :
    alookup (cs.foldl (fun acc c => trackModification c acc) sd) h = none := by
  induction cs generalizing sd with
  | nil => exact habs
  | cons c rest ih =>
    have h' : alookup (trackModification c sd) h = none := by
      rw [alookup_trackModification_none c sd h habs,
        if_neg (fun hh => hne c (List.mem_cons_self c rest) hh.symm)]
    exact ih _ (fun c' hc' => hne c' (List.mem_cons_of_mem c hc')) h'

theorem foldl_trackModification_fresh (hier : List ChainKey) (sd : ScopeChains)
    (h : ChainKey) (hmem : h ∈ hier) (hnd : hier.Nodup) (habs : alookup sd h = none) :
    alookup (hier.foldl (fun acc c => trackModification c acc) sd) h
      = some ⟨0, [], true⟩ := by
  obtain ⟨pre, post, rfl⟩ := List.append_of_mem hmem
  obtain ⟨hnd1, hnd2, hdisj⟩ := List.nodup_append.mp hnd
  have hpre : ∀ c ∈ pre, c ≠ h := fun c hc hch =>
    hdisj (hch ▸ hc) (List.mem_cons_self h post)
  have h1 : alookup (pre.foldl (fun acc c => trackModification c acc) sd) h = none :=
    foldl_trackModification_none pre sd h hpre habs
  rw [List.foldl_append, List.foldl_cons]
  have h2 : alookup
      (trackModification h (pre.foldl (fun acc c => trackModification c acc) sd)) h
      = some ⟨0, [], true⟩ := by
    rw [alookup_trackModification_none h _ h h1, if_pos rfl]
  exact foldl_trackModification_preserve post _ h _ h2 rfl

/-! ## `procLoop` lemmas -/

theorem procLoop_keeps (minOcc i : Nat) (hier : List ChainKey) :
    ∀ (sd : ScopeChains) (long d : ChainKey) (r : Record), alookup sd d = some r →
      ∃ r', alookup (procLoop minOcc i hier sd long).1 d = some r'
        ∧ ∃ l, r'.nodes = r.nodes ++ l ∧ ∀ x ∈ l, x = i := by
  induction hier with
  | nil =>
    intro sd long d r h
    exact ⟨r, h, [], by simp, by simp⟩
  | cons c rest ih =>
    intro sd long d r h
    have main : ∀ long', ∃ r', alookup (procLoop minOcc i rest (aset sd c
        ⟨((alookup sd c).getD defaultRec).count + 1,
          ((alookup sd c).getD defaultRec).nodes ++ [i],
          ((alookup sd c).getD defaultRec).modified⟩) long').1 d = some r'
        ∧ ∃ l, r'.nodes = r.nodes ++ l ∧ ∀ x ∈ l, x = i := by
      intro long'
      by_cases hdc : d = c
      · subst hdc
        obtain ⟨r', hr', l, hl, hli⟩ := ih _ long' d _ (alookup_aset_self sd d _)
        refine ⟨r', hr', [i] ++ l, ?_, ?_⟩
        · rw [hl]
          simp [h]
        · intro x hx
          rcases List.mem_append.mp hx with hx1 | hx2
          · simpa using hx1
          · exact hli x hx2
      · exact ih (aset sd c _) long' d r (by rw [alookup_aset_ne _ _ _ _ hdc]; exact h)
    simp only [procLoop]
    split_ifs with h1 h2 h3 h4
    · exact ih sd long d r h
    · exact ih sd long d r h
    · exact ih sd long d r h
    · exact main c
    · exact main long

theorem procLoop_new (minOcc i : Nat) (hier : List ChainKey) :
    ∀ (sd : ScopeChains) (long d : ChainKey), alookup sd d = none →
      ∀ r', alookup (procLoop minOcc i hier sd long).1 d = some r' →
        ∀ x ∈ r'.nodes, x = i := by
  induction hier with
  | nil =>
    intro sd long d h r' hr'
    simp only [procLoop] at hr'
    rw [h] at hr'
    exact Option.noConfusion hr'
  | cons c rest ih =>
    intro sd long d h r' hr'
    have main : ∀ long', alookup (procLoop minOcc i rest (aset sd c
        ⟨((alookup sd c).getD defaultRec).count + 1,
          ((alookup sd c).getD defaultRec).nodes ++ [i],
          ((alookup sd c).getD defaultRec).modified⟩) long').1 d = some r' →
        ∀ x ∈ r'.nodes, x = i := by
      intro long' hr''
      by_cases hdc : d = c
      · subst hdc
        obtain ⟨r'', hkeep, l, hl, hli⟩ := procLoop_keeps minOcc i rest
          (aset sd d _) long' d _ (alookup_aset_self sd d _)
        rw [hkeep] at hr''
        have hr'eq : r'' = r' := Option.some_inj.mp hr''
        subst hr'eq
        intro x hx
        rw [hl] at hx
        rcases List.mem_append.mp hx with hx1 | hx2
        · rw [h] at hx1
          rcases List.mem_append.mp (by simpa [defaultRec] using hx1 :
              x ∈ ([] : List Nat) ++ [i]) with hx3 | hx4
          · simp at hx3
          · simpa using hx4
        · exact hli x hx2
      · exact ih (aset sd c _) long' d
          (by rw [alookup_aset_ne _ _ _ _ hdc]; exact h) r' hr''
    simp only [procLoop] at hr'
    split_ifs at hr' with h1 h2 h3 h4
    · exact ih sd long d h r' hr'
    · exact ih sd long d h r' hr'
    · exact ih sd long d h r' hr'
    · exact main c hr'
    · exact main long hr'

theorem procLoop_frozen (minOcc i : Nat) (hier : List ChainKey) :
    ∀ (sd : ScopeChains) (long d : ChainKey) (r : Record), alookup sd d = some r →
      r.modified = true →
      alookup (procLoop minOcc i hier sd long).1 d = some r
      ∧ ((procLoop minOcc i hier sd long).2 = d → long = d) := by
  induction hier with
  | nil =>
    intro sd long d r h hm
    exact ⟨h, fun hh => hh⟩
  | cons c rest ih =>
    intro sd long d r h hm
    simp only [procLoop]
    split_ifs with h1 h2 h3 h4
    · exact ih sd long d r h hm
    · exact ih sd long d r h hm
    · exact ih sd long d r h hm
    · have hdc : d ≠ c := by
        intro hh
        subst hh
        rw [h] at h3
        simp [hm] at h3
      have hlook : alookup (aset sd c ⟨((alookup sd c).getD defaultRec).count + 1,
          ((alookup sd c).getD defaultRec).nodes ++ [i],
          ((alookup sd c).getD defaultRec).modified⟩) d = some r := by
        rw [alookup_aset_ne _ _ _ _ hdc]
        exact h
      obtain ⟨ha, hb⟩ := ih _ c d r hlook hm
      exact ⟨ha, fun hh => absurd (hb hh) (fun hcd => hdc hcd.symm)⟩
    · have hdc : d ≠ c := by
        intro hh
        subst hh
        rw [h] at h3
        simp [hm] at h3
      have hlook : alookup (aset sd c ⟨((alookup sd c).getD defaultRec).count + 1,
          ((alookup sd c).getD defaultRec).nodes ++ [i],
          ((alookup sd c).getD defaultRec).modified⟩) d = some r := by
        rw [alookup_aset_ne _ _ _ _ hdc]
        exact h
      exact ih _ long d r hlook hm

theorem procLoop_reported (minOcc i : Nat) (hier : List ChainKey) :
    ∀ (sd : ScopeChains) (long : ChainKey),
      (procLoop minOcc i hier sd long).2 ≠ long →
      ∃ r', alookup (procLoop minOcc i hier sd long).1
          (procLoop minOcc i hier sd long).2 = some r' ∧ r'.nodes ≠ [] := by
  induction hier with
  | nil =>
    intro sd long h
    exact absurd rfl h
  | cons c rest ih =>
    intro sd long h
    simp only [procLoop] at h ⊢
    split_ifs at h ⊢ with h1 h2 h3 h4
    · exact ih sd long h
    · exact ih sd long h
    · exact ih sd long h
    · by_cases hres : (procLoop minOcc i rest (aset sd c
          ⟨((alookup sd c).getD defaultRec).count + 1,
            ((alookup sd c).getD defaultRec).nodes ++ [i],
            ((alookup sd c).getD defaultRec).modified⟩) c).2 = c
      · rw [hres]
        obtain ⟨r', hr', l, hl, hli⟩ := procLoop_keeps minOcc i rest _ c c _
          (alookup_aset_self sd c _)
        refine ⟨r', hr', ?_⟩
        rw [hl]
        simp
      · exact ih _ c hres
    · exact ih _ long h

theorem procLoop_no_longest (minOcc i : Nat) (hier : List ChainKey) :
    ∀ (sd : ScopeChains) (long : ChainKey), hier.Nodup →
      (∀ c ∈ hier, ((alookup sd c).getD defaultRec).count + 1 < minOcc) →
      (procLoop minOcc i hier sd long).2 = long := by
  induction hier with
  | nil =>
    intro sd long _ _
    rfl
  | cons c rest ih =>
    intro sd long hnd hcnt
    have hcm := (List.nodup_cons.mp hnd).1
    have hnd' := (List.nodup_cons.mp hnd).2
    simp only [procLoop]
    split_ifs with h1 h2 h3 h4
    · exact ih sd long hnd' (fun c' hc' => hcnt c' (List.mem_cons_of_mem c hc'))
    · exact ih sd long hnd' (fun c' hc' => hcnt c' (List.mem_cons_of_mem c hc'))
    · exact ih sd long hnd' (fun c' hc' => hcnt c' (List.mem_cons_of_mem c hc'))
    · exact absurd h4.1 (by
        have := hcnt c (List.mem_cons_self c rest)
        omega)
    · refine ih _ long hnd' (fun c' hc' => ?_)
      have hne : c ≠ c' := fun hh => hcm (hh ▸ hc')
      rw [alookup_aset_ne _ _ _ _ (fun hh => hne hh.symm)]
      exact hcnt c' (List.mem_cons_of_mem c hc')

/-! ## Step-level lemmas for engine A -/

theorem recOf_eq_getD (st : St) (s : Nat) (d : ChainKey) :
    recOf st s d = alookup ((alookup st.scopes s).getD []) d := by
  rw [recOf]
  cases alookup st.scopes s with
  | none => simp [alookup]
  | some sd => simp

theorem handleMut_diags (s2 : Nat) (e : Expr) (st : St) :
    (handleMut s2 e st).diags = st.diags := by
  rw [handleMut]
  split_ifs with hm
  · cases hce : analyzeChain e with
    | none => simp [hce]
    | some ci => simp [hce]
  · rfl

theorem handleMut_reported (s2 : Nat) (e : Expr) (st : St) :
    (handleMut s2 e st).reported = st.reported := by
  rw [handleMut]
  split_ifs with hm
  · cases hce : analyzeChain e with
    | none => simp [hce]
    | some ci => simp [hce]
  · rfl

theorem handleMut_scopes_other (s2 : Nat) (e : Expr) (st : St) (s : Nat) (hs : s ≠ s2) :
    alookup (handleMut s2 e st).scopes s = alookup st.scopes s := by
  rw [handleMut]
  split_ifs with hm
  · cases hce : analyzeChain e with
    | none => simp [hce]
    | some ci =>
      simp only [hce]
      exact alookup_aset_ne _ _ _ _ hs
  · rfl

theorem handleMut_recOf_self (s2 : Nat) (e : Expr) (st : St) (ci : ChainInfo)
    (hm : e.isMember = true) (hce : analyzeChain e = some ci) (d : ChainKey) :
    recOf (handleMut s2 e st) s2 d
      = alookup (ci.hierarchy.foldl (fun acc c => trackModification c acc)
          ((alookup st.scopes s2).getD [])) d := by
  rw [handleMut, if_pos hm, hce]
  rw [recOf_eq_getD]
  simp only []
  rw [alookup_aset_self]
  simp

theorem handleMut_recOf_frozen (s2 : Nat) (e : Expr) (st : St) (s : Nat) (d : ChainKey)
    (r : Record) (h : recOf st s d = some r) (hmod : r.modified = true) :
    recOf (handleMut s2 e st) s d = some r := by
  by_cases hs : s = s2
  · subst hs
    rw [handleMut]
    split_ifs with hmem
    · cases hce : analyzeChain e with
      | none => simp only [hce]; exact h
      | some ci =>
        simp only [hce]
        rw [recOf_eq_getD]
        simp only [St.mk.injEq]
        rw [alookup_aset_self]
        simp only [Option.getD_some]
        exact foldl_trackModification_preserve _ _ d r
          (by rw [← recOf_eq_getD]; exact h) hmod
    · exact h
  · rw [recOf_eq_getD, handleMut_scopes_other s2 e st s hs, ← recOf_eq_getD]
    exact h

theorem recOf_set_self (sc : List (Nat × ScopeChains)) (rep : List ChainKey)
    (dg : List Diag) (s : Nat) (sd : ScopeChains) (d : ChainKey) :
    recOf ⟨aset sc s sd, rep, dg⟩ s d = alookup sd d := by
  simp [recOf, alookup_aset_self]

theorem recOf_set_other (sc : List (Nat × ScopeChains)) (rep : List ChainKey)
    (dg : List Diag) (s s2 : Nat) (sd : ScopeChains) (d : ChainKey) (hs : s ≠ s2) :
    recOf ⟨aset sc s2 sd, rep, dg⟩ s d
      = recOf ⟨sc, rep, dg⟩ s d := by
  simp [recOf, alookup_aset_ne _ _ _ _ hs]

theorem foldl_trackModification_nodes (hier : List ChainKey) (sd : ScopeChains)
    (d : ChainKey) (r : Record) (h : alookup sd d = some r) :
    ∃ r', alookup (hier.foldl (fun acc c => trackModification c acc) sd) d = some r'
      ∧ r'.nodes = r.nodes := by
  induction hier generalizing sd r with
  | nil => exact ⟨r, h, rfl⟩
  | cons c rest ih =>
    by_cases hmc : chainMatches d c
    · exact (ih (trackModification c sd) (markRec r)
        (by rw [alookup_trackModification_some c sd d r h, if_pos hmc])).imp
        (fun r' ⟨h1, h2⟩ => ⟨h1, h2⟩)
    · exact ih (trackModification c sd) r
        (by rw [alookup_trackModification_some c sd d r h, if_neg hmc])

theorem foldl_trackModification_newnodes (hier : List ChainKey) (sd : ScopeChains)
    (d : ChainKey) (h : alookup sd d = none) (r' : Record)
    (h' : alookup (hier.foldl (fun acc c => trackModification c acc) sd) d = some r') :
    r'.nodes = [] := by
  induction hier generalizing sd with
  | nil =>
    simp only [List.foldl_nil] at h'
    rw [h] at h'
    exact Option.noConfusion h'
  | cons c rest ih =>
    simp only [List.foldl_cons] at h'
    by_cases hdc : d = c
    · subst hdc
      have hc : alookup (trackModification d sd) d = some ⟨0, [], true⟩ := by
        rw [alookup_trackModification_none d sd d h, if_pos rfl]
      obtain ⟨r'', h1, h2⟩ := foldl_trackModification_nodes rest _ d _ hc
      rw [h1] at h'
      have : r'' = r' := Option.some_inj.mp h'
      subst this
      exact h2
    · exact ih (trackModification c sd)
        (by rw [alookup_trackModification_none c sd d h, if_neg hdc]) h'

theorem stepA_recOf_frozen (minOcc : Nat) (st : St) (ev : Ev) (s : Nat) (d : ChainKey)
    (r : Record) (h : recOf st s d = some r) (hmod : r.modified = true) :
    recOf (stepA minOcc st ev) s d = some r := by
  cases ev with
  | assign s2 lhs => exact handleMut_recOf_frozen s2 lhs st s d r h hmod
  | upd s2 a => exact handleMut_recOf_frozen s2 a st s d r h hmod
  | call s2 c2 => exact handleMut_recOf_frozen s2 c2 st s d r h hmod
  | occ s2 i e pim =>
    simp only [stepA, processMemberExpression]
    split_ifs with hpim
    · exact h
    · cases hce : analyzeChain e with
      | none => simp only [hce]; exact h
      | some ci =>
        simp only [hce]
        by_cases hs : s = s2
        · subst hs
          have hfroz := procLoop_frozen minOcc i ci.hierarchy
            ((alookup st.scopes s).getD []) [] d r
            (by rw [← recOf_eq_getD]; exact h) hmod
          split_ifs with hg
          · rw [recOf_set_self]
            exact hfroz.1
          · rw [recOf_set_self]
            exact hfroz.1
        · split_ifs with hg
          · rw [recOf_set_other _ _ _ _ _ _ _ hs]
            exact h
          · rw [recOf_set_other _ _ _ _ _ _ _ hs]
            exact h

theorem stepA_diags_mono (minOcc : Nat) (st : St) (ev : Ev) :
    ∃ t, (stepA minOcc st ev).diags = st.diags ++ t := by
  cases ev with
  | assign s2 lhs => exact ⟨[], by simp only [stepA]; rw [handleMut_diags]; simp⟩
  | upd s2 a => exact ⟨[], by simp only [stepA]; rw [handleMut_diags]; simp⟩
  | call s2 c2 => exact ⟨[], by simp only [stepA]; rw [handleMut_diags]; simp⟩
  | occ s2 i e pim =>
    simp only [stepA, processMemberExpression]
    split_ifs with hpim
    · exact ⟨[], by simp⟩
    · cases hce : analyzeChain e with
      | none => exact ⟨[], by simp⟩
      | some ci =>
        simp only []
        split_ifs with hg
        · exact ⟨_, rfl⟩
        · exact ⟨[], by simp⟩

theorem stepA_reported_mono (minOcc : Nat) (st : St) (ev : Ev) :
    ∃ t, (stepA minOcc st ev).reported = st.reported ++ t := by
  cases ev with
  | assign s2 lhs => exact ⟨[], by simp only [stepA]; rw [handleMut_reported]; simp⟩
  | upd s2 a => exact ⟨[], by simp only [stepA]; rw [handleMut_reported]; simp⟩
  | call s2 c2 => exact ⟨[], by simp only [stepA]; rw [handleMut_reported]; simp⟩
  | occ s2 i e pim =>
    simp only [stepA, processMemberExpression]
    split_ifs with hpim
    · exact ⟨[], by simp⟩
    · cases hce : analyzeChain e with
      | none => exact ⟨[], by simp⟩
      | some ci =>
        simp only []
        split_ifs with hg
        · exact ⟨_, rfl⟩
        · exact ⟨[], by simp⟩

theorem stepA_no_new_diag_modified (minOcc : Nat) (st : St) (ev : Ev) (s : Nat)
    (d : ChainKey) (r : Record) (h : recOf st s d = some r) (hmod : r.modified = true) :
    ∀ dg ∈ (stepA minOcc st ev).diags, dg ∈ st.diags ∨ ¬(dg.scope = s ∧ dg.chain = d) := by
  cases ev with
  | assign s2 lhs =>
    intro dg hdg
    simp only [stepA] at hdg
    rw [handleMut_diags] at hdg
    exact Or.inl hdg
  | upd s2 a =>
    intro dg hdg
    simp only [stepA] at hdg
    rw [handleMut_diags] at hdg
    exact Or.inl hdg
  | call s2 c2 =>
    intro dg hdg
    simp only [stepA] at hdg
    rw [handleMut_diags] at hdg
    exact Or.inl hdg
  | occ s2 i e pim =>
    simp only [stepA, processMemberExpression]
    split_ifs with hpim
    · exact fun dg hdg => Or.inl hdg
    · cases hce : analyzeChain e with
      | none => simp only []; exact fun dg hdg => Or.inl hdg
      | some ci =>
        simp only []
        split_ifs with hg
        · intro dg hdg
          simp only [List.mem_append, List.mem_singleton] at hdg
          rcases hdg with hdg | hdg
          · exact Or.inl hdg
          · subst hdg
            refine Or.inr (fun ⟨hsc, hch⟩ => ?_)
            simp only [] at hsc hch
            have h2 : recOf st s2 d = some r := by rw [hsc]; exact h
            have hfroz := procLoop_frozen minOcc i ci.hierarchy
              ((alookup st.scopes s2).getD []) [] d r
              (by rw [← recOf_eq_getD]; exact h2) hmod
            have hnil : ([] : ChainKey) = d := hfroz.2 hch
            rw [← hnil] at hch
            rw [hch] at hg
            simp [chainChars] at hg
        · exact fun dg hdg => Or.inl hdg

theorem stepA_nodes_extend (minOcc : Nat) (st : St) (ev : Ev) (s : Nat) (d : ChainKey)
    (r : Record) (h : recOf st s d = some r) :
    ∃ r', recOf (stepA minOcc st ev) s d = some r'
      ∧ ∃ l, r'.nodes = r.nodes ++ l ∧ ∀ x ∈ l, x ∈ evOccIds ev := by
  have hmut : ∀ s2 e, ∃ r', recOf (handleMut s2 e st) s d = some r'
      ∧ r'.nodes = r.nodes := by
    intro s2 e
    by_cases hs : s = s2
    · subst hs
      rw [handleMut]
      split_ifs with hmem
      · cases hce : analyzeChain e with
        | none => exact ⟨r, h, rfl⟩
        | some ci =>
          simp only [hce]
          obtain ⟨r', h1, h2⟩ := foldl_trackModification_nodes ci.hierarchy
            ((alookup st.scopes s).getD []) d r (by rw [← recOf_eq_getD]; exact h)
          refine ⟨r', ?_, h2⟩
          rw [recOf_set_self]
          exact h1
      · exact ⟨r, h, rfl⟩
    · refine ⟨r, ?_, rfl⟩
      rw [recOf_eq_getD, handleMut_scopes_other s2 e st s hs, ← recOf_eq_getD]
      exact h
  cases ev with
  | assign s2 lhs =>
    obtain ⟨r', h1, h2⟩ := hmut s2 lhs
    exact ⟨r', h1, [], by simp [h2], by simp⟩
  | upd s2 a =>
    obtain ⟨r', h1, h2⟩ := hmut s2 a
    exact ⟨r', h1, [], by simp [h2], by simp⟩
  | call s2 c2 =>
    obtain ⟨r', h1, h2⟩ := hmut s2 c2
    exact ⟨r', h1, [], by simp [h2], by simp⟩
  | occ s2 i e pim =>
    simp only [stepA, processMemberExpression]
    split_ifs with hpim
    · exact ⟨r, h, [], by simp, by simp⟩
    · cases hce : analyzeChain e with
      | none => simp only []; exact ⟨r, h, [], by simp, by simp⟩
      | some ci =>
        simp only []
        by_cases hs : s = s2
        · subst hs
          obtain ⟨r', h1, l, h2, h3⟩ := procLoop_keeps minOcc i ci.hierarchy
            ((alookup st.scopes s).getD []) [] d r (by rw [← recOf_eq_getD]; exact h)
          refine ⟨r', ?_, l, h2, fun x hx => by simp [evOccIds, h3 x hx]⟩
          split_ifs with hg
          · rw [recOf_set_self]; exact h1
          · rw [recOf_set_self]; exact h1
        · refine ⟨r, ?_, [], by simp, by simp⟩
          split_ifs with hg
          · rw [recOf_set_other _ _ _ _ _ _ _ hs]; exact h
          · rw [recOf_set_other _ _ _ _ _ _ _ hs]; exact h

theorem stepA_new_record (minOcc : Nat) (st : St) (ev : Ev) (s : Nat) (d : ChainKey)
    (h : recOf st s d = none) (r' : Record)
    (h' : recOf (stepA minOcc st ev) s d = some r') :
    ∀ x ∈ r'.nodes, x ∈ evOccIds ev := by
  have hmut : ∀ s2 e, recOf (handleMut s2 e st) s d = some r' → r'.nodes = [] := by
    intro s2 e hh
    by_cases hs : s = s2
    · subst hs
      rw [handleMut] at hh
      split_ifs at hh with hmem
      · cases hce : analyzeChain e with
        | none =>
          simp only [hce] at hh
          rw [h] at hh
          exact Option.noConfusion hh
        | some ci =>
          simp only [hce] at hh
          rw [recOf_set_self] at hh
          exact foldl_trackModification_newnodes ci.hierarchy _ d
            (by rw [← recOf_eq_getD]; exact h) r' hh
      · rw [h] at hh
        exact Option.noConfusion hh
    · rw [recOf_eq_getD, handleMut_scopes_other s2 e st s hs, ← recOf_eq_getD, h] at hh
      exact Option.noConfusion hh
  cases ev with
  | assign s2 lhs => rw [hmut s2 lhs h']; simp
  | upd s2 a => rw [hmut s2 a h']; simp
  | call s2 c2 => rw [hmut s2 c2 h']; simp
  | occ s2 i e pim =>
    simp only [stepA, processMemberExpression] at h'
    split_ifs at h' with hpim
    · rw [h] at h'
      exact Option.noConfusion h'
    · cases hce : analyzeChain e with
      | none =>
        simp only [hce] at h'
        rw [h] at h'
        exact Option.noConfusion h'
      | some ci =>
        simp only [hce] at h'
        by_cases hs : s = s2
        · subst hs
          have hpn := procLoop_new minOcc i ci.hierarchy
            ((alookup st.scopes s).getD []) [] d (by rw [← recOf_eq_getD]; exact h)
          split_ifs at h' with hg
          · rw [recOf_set_self] at h'
            intro x hx
            simp [evOccIds, hpn r' h' x hx]
          · rw [recOf_set_self] at h'
            intro x hx
            simp [evOccIds, hpn r' h' x hx]
        · split_ifs at h' with hg
          · rw [recOf_set_other _ _ _ _ _ _ _ hs] at h'
            simp only [recOf_eq_getD] at h h'
            rw [h] at h'
            exact Option.noConfusion h'
          · rw [recOf_set_other _ _ _ _ _ _ _ hs] at h'
            simp only [recOf_eq_getD] at h h'
            rw [h] at h'
            exact Option.noConfusion h'

/-! ## Run-level lemmas for engine A -/

theorem runA_cons (minOcc : Nat) (st : St) (ev : Ev) (rest : List Ev) :
    runA minOcc st (ev :: rest) = runA minOcc (stepA minOcc st ev) rest := rfl

theorem runA_append (minOcc : Nat) (st : St) (l1 l2 : List Ev) :
    runA minOcc st (l1 ++ l2) = runA minOcc (runA minOcc st l1) l2 := by
  simp [runA, List.foldl_append]

theorem runA_recOf_frozen (minOcc : Nat) (st : St) (evs : List Ev) (s : Nat) (d : ChainKey)
    (r : Record) (h : recOf st s d = some r) (hmod : r.modified = true) :
    recOf (runA minOcc st evs) s d = some r := by
  induction evs generalizing st with
  | nil => exact h
  | cons ev rest ih =>
    rw [runA_cons]
    exact ih _ (stepA_recOf_frozen minOcc st ev s d r h hmod)

theorem runA_diags_mono (minOcc : Nat) (st : St) (evs : List Ev) :
    ∃ t, (runA minOcc st evs).diags = st.diags ++ t := by
  induction evs generalizing st with
  | nil => exact ⟨[], by simp [runA]⟩
  | cons ev rest ih =>
    rw [runA_cons]
    obtain ⟨t1, h1⟩ := stepA_diags_mono minOcc st ev
    obtain ⟨t2, h2⟩ := ih (stepA minOcc st ev)
    exact ⟨t1 ++ t2, by rw [h2, h1, List.append_assoc]⟩

theorem runA_reported_mono (minOcc : Nat) (st : St) (evs : List Ev) :
    ∃ t, (runA minOcc st evs).reported = st.reported ++ t := by
  induction evs generalizing st with
  | nil => exact ⟨[], by simp [runA]⟩
  | cons ev rest ih =>
    rw [runA_cons]
    obtain ⟨t1, h1⟩ := stepA_reported_mono minOcc st ev
    obtain ⟨t2, h2⟩ := ih (stepA minOcc st ev)
    exact ⟨t1 ++ t2, by rw [h2, h1, List.append_assoc]⟩

theorem runA_no_new_diag_modified (minOcc : Nat) (st : St) (evs : List Ev) (s : Nat)
    (d : ChainKey) (r : Record) (h : recOf st s d = some r) (hmod : r.modified = true) :
    ∀ dg ∈ (runA minOcc st evs).diags, dg ∈ st.diags ∨ ¬(dg.scope = s ∧ dg.chain = d) := by
  induction evs generalizing st with
  | nil => exact fun dg hdg => Or.inl hdg
  | cons ev rest ih =>
    intro dg hdg
    rw [runA_cons] at hdg
    have h2 := stepA_recOf_frozen minOcc st ev s d r h hmod
    rcases ih (stepA minOcc st ev) h2 dg hdg with hin | hright
    · exact stepA_no_new_diag_modified minOcc st ev s d r h hmod dg hin
    · exact Or.inr hright

theorem occIds_cons (ev : Ev) (rest : List Ev) :
    occIds (ev :: rest) = evOccIds ev ++ occIds rest := by
  simp [occIds]

theorem runA_nodes_extend (minOcc : Nat) (st : St) (evs : List Ev) (s : Nat) (d : ChainKey)
    (r : Record) (h : recOf st s d = some r) :
    ∃ r', recOf (runA minOcc st evs) s d = some r'
      ∧ ∃ l, r'.nodes = r.nodes ++ l ∧ ∀ x ∈ l, x ∈ occIds evs := by
  induction evs generalizing st r with
  | nil => exact ⟨r, h, [], by simp, by simp⟩
  | cons ev rest ih =>
    rw [runA_cons]
    obtain ⟨r1, h1, l1, hl1, hli1⟩ := stepA_nodes_extend minOcc st ev s d r h
    obtain ⟨r', h', l2, hl2, hli2⟩ := ih (stepA minOcc st ev) r1 h1
    refine ⟨r', h', l1 ++ l2, ?_, ?_⟩
    · rw [hl2, hl1, List.append_assoc]
    · intro x hx
      rw [occIds_cons]
      rcases List.mem_append.mp hx with hx1 | hx2
      · exact List.mem_append.mpr (Or.inl (hli1 x hx1))
      · exact List.mem_append.mpr (Or.inr (hli2 x hx2))

theorem runA_new_record (minOcc : Nat) (st : St) (evs : List Ev) (s : Nat) (d : ChainKey)
    (h : recOf st s d = none) (r' : Record)
    (h' : recOf (runA minOcc st evs) s d = some r') :
    ∀ x ∈ r'.nodes, x ∈ occIds evs := by
  induction evs generalizing st with
  | nil =>
    simp only [runA, List.foldl_nil] at h'
    rw [h] at h'
    exact Option.noConfusion h'
  | cons ev rest ih =>
    rw [runA_cons] at h'
    cases h2 : recOf (stepA minOcc st ev) s d with
    | none =>
      intro x hx
      rw [occIds_cons]
      exact List.mem_append.mpr (Or.inr (ih (stepA minOcc st ev) h2 h' x hx))
    | some r1 =>
      have hr1 := stepA_new_record minOcc st ev s d h r1 h2
      obtain ⟨r'', h'', l2, hl2, hli2⟩ := runA_nodes_extend minOcc (stepA minOcc st ev)
        rest s d r1 h2
      rw [h''] at h'
      have heq : r'' = r' := Option.some_inj.mp h'
      subst heq
      intro x hx
      rw [hl2] at hx
      rw [occIds_cons]
      rcases List.mem_append.mp hx with hx1 | hx2
      · exact List.mem_append.mpr (Or.inl (hr1 x hx1))
      · exact List.mem_append.mpr (Or.inr (hli2 x hx2))

theorem stepA_scopes_other (minOcc : Nat) (st : St) (ev : Ev) (s : Nat)
    (hs : s ≠ ev.scope) :
    alookup (stepA minOcc st ev).scopes s = alookup st.scopes s := by
  cases ev with
  | assign s2 lhs => exact handleMut_scopes_other s2 lhs st s hs
  | upd s2 a => exact handleMut_scopes_other s2 a st s hs
  | call s2 c2 => exact handleMut_scopes_other s2 c2 st s hs
  | occ s2 i e pim =>
    have hs2 : s ≠ s2 := hs
    simp only [stepA, processMemberExpression]
    split_ifs with hpim
    · rfl
    · cases hce : analyzeChain e with
      | none => simp only []
      | some ci =>
        simp only []
        split_ifs with hg
        · exact alookup_aset_ne _ _ _ _ hs2
        · exact alookup_aset_ne _ _ _ _ hs2

theorem handleMut_scopes_congr (s2 : Nat) (e : Expr) (st1 st2 : St) (s : Nat)
    (h : alookup st1.scopes s = alookup st2.scopes s) :
    alookup (handleMut s2 e st1).scopes s = alookup (handleMut s2 e st2).scopes s := by
  by_cases hs : s = s2
  · subst hs
    rw [handleMut, handleMut]
    split_ifs with hm
    · cases hce : analyzeChain e with
      | none => simp only [hce]; exact h
      | some ci =>
        simp only [hce]
        simp only [alookup_aset_self]
        rw [h]
    · exact h
  · rw [handleMut_scopes_other s2 e st1 s hs, handleMut_scopes_other s2 e st2 s hs]
    exact h

theorem stepA_scopes_congr (minOcc : Nat) (st1 st2 : St) (ev : Ev) (s : Nat)
    (h : alookup st1.scopes s = alookup st2.scopes s) :
    alookup (stepA minOcc st1 ev).scopes s = alookup (stepA minOcc st2 ev).scopes s := by
  cases ev with
  | assign s2 lhs => exact handleMut_scopes_congr s2 lhs st1 st2 s h
  | upd s2 a => exact handleMut_scopes_congr s2 a st1 st2 s h
  | call s2 c2 => exact handleMut_scopes_congr s2 c2 st1 st2 s h
  | occ s2 i e pim =>
    by_cases hs : s = s2
    · subst hs
      simp only [stepA, processMemberExpression]
      split_ifs with hpim
      · exact h
      · cases hce : analyzeChain e with
        | none => simp only [hce]; exact h
        | some ci =>
          simp only [hce]
          split_ifs with hg1 hg2 hg2
          · simp only [alookup_aset_self]
            rw [h]
          · simp only [alookup_aset_self]
            rw [h]
          · simp only [alookup_aset_self]
            rw [h]
          · simp only [alookup_aset_self]
            rw [h]
    · rw [stepA_scopes_other minOcc st1 (Ev.occ s2 i e pim) s hs,
        stepA_scopes_other minOcc st2 (Ev.occ s2 i e pim) s hs]
      exact h

theorem runA_scopes_filter (minOcc : Nat) (st1 st2 : St) (evs : List Ev) (s : Nat)
    (h : alookup st1.scopes s = alookup st2.scopes s) :
    alookup (runA minOcc st1 evs).scopes s
      = alookup (runA minOcc st2 (evs.filter (fun ev => ev.scope == s))).scopes s := by
  induction evs generalizing st1 st2 with
  | nil => simpa [runA] using h
  | cons ev rest ih =>
    rw [runA_cons]
    by_cases hev : ev.scope = s
    · rw [List.filter_cons_of_pos (by simp [hev]), runA_cons]
      exact ih _ _ (stepA_scopes_congr minOcc st1 st2 ev s h)
    · rw [List.filter_cons_of_neg (by simp [hev])]
      refine ih _ _ ?_
      rw [stepA_scopes_other minOcc st1 ev s (fun hh => hev hh.symm)]
      exact h

/-! ## Support lemmas for the claim theorems -/

theorem analyzeChain_spec (e : Expr) (ci : ChainInfo) (h : analyzeChain e = some ci) :
    ∃ ps, analyzeParts e = some ps ∧ 2 ≤ ps.length
      ∧ ci.hierarchy = hierList ps ∧ ci.fullChain = ps := by
  rw [analyzeChain] at h
  cases hp : analyzeParts e with
  | none =>
    rw [hp] at h
    exact Option.noConfusion h
  | some ps =>
    rw [hp] at h
    have h2 : (if ps.length < 2 then none
        else some (⟨hierList ps, (hierList ps).getLastD []⟩ : ChainInfo)) = some ci := h
    by_cases hlen : ps.length < 2
    · rw [if_pos hlen] at h2
      exact Option.noConfusion h2
    · rw [if_neg hlen] at h2
      have hci : ci = ⟨hierList ps, (hierList ps).getLastD []⟩ := (Option.some_inj.mp h2).symm
      have hne : ps ≠ [] := by
        intro hh
        rw [hh] at hlen
        simp at hlen
      have hlen2 : 2 ≤ ps.length := by omega
      refine ⟨ps, rfl, hlen2, ?_, ?_⟩
      · rw [hci]
      · rw [hci]
        exact hierList_getLastD ps hne

theorem analyzeParts_eq_none_of_computed (e : Expr) (hc : spineObjHasComputed e = true) :
    analyzeParts e = none := by
  cases e <;> first
    | rfl
    | exact analyzeObjParts_eq_none_of_computed _ hc

theorem analyzeParts_eq_none_of_root (e : Expr) (hr : isPlainRoot (chainRoot e) = false) :
    analyzeParts e = none := by
  cases e <;> first
    | rfl
    | exact analyzeObjParts_eq_none_of_root _ hr

theorem stepA_occ_skip (minOcc : Nat) (st : St) (s i : Nat) (e : Expr) (pim : Bool)
    (h : analyzeChain e = none) : stepA minOcc st (.occ s i e pim) = st := by
  simp only [stepA, processMemberExpression]
  split_ifs with hpim
  · rfl
  · simp only [h]

theorem runA_occ_skip (minOcc : Nat) (st : St) (evs1 evs2 : List Ev) (s i : Nat)
    (e : Expr) (pim : Bool) (h : analyzeChain e = none) :
    runA minOcc st (evs1 ++ Ev.occ s i e pim :: evs2) = runA minOcc st (evs1 ++ evs2) := by
  rw [runA_append, runA_cons, stepA_occ_skip _ _ _ _ _ _ h, ← runA_append]

theorem stepA_occ_fresh (minOcc : Nat) (st : St) (s i : Nat) (e : Expr) (pim : Bool)
    (hmin : 2 ≤ minOcc) (hsc : alookup st.scopes s = none) :
    (stepA minOcc st (.occ s i e pim)).diags = st.diags
    ∧ (stepA minOcc st (.occ s i e pim)).reported = st.reported := by
  cases hce : analyzeChain e with
  | none =>
    rw [stepA_occ_skip minOcc st s i e pim hce]
    exact ⟨rfl, rfl⟩
  | some ci =>
    simp only [stepA, processMemberExpression]
    split_ifs with hpim
    · exact ⟨rfl, rfl⟩
    · simp only [hce]
      obtain ⟨ps, hps, hlen, hhier, hfull⟩ := analyzeChain_spec e ci hce
      have hnl : (procLoop minOcc i ci.hierarchy ((alookup st.scopes s).getD []) []).2
          = [] := by
        rw [hsc]
        simp only [Option.getD_none]
        apply procLoop_no_longest
        · rw [hhier]
          exact nodup_hierList ps
        · intro c hc
          simp only [alookup, Option.getD_none, defaultRec]
          omega
      split_ifs with hg
      · exfalso
        rw [hnl] at hg
        simp [chainChars] at hg
      · exact ⟨rfl, rfl⟩

/-! ## Claim theorems for engine A -/

/-- Claim C8: the `modified` flag of a chain record is monotonic — once a
record is modified, every later operation of the engine leaves the record
(flag, count and occurrence list) exactly unchanged for the rest of the
run, so a modified prefix stops accumulating. -/
theorem modifiedFlagMonotonic (minOcc : Nat) (st : St) (evs : List Ev) (s : Nat)
    (c : ChainKey) (r : Record) (h : recOf st s c = some r) (hmod : r.modified = true) :
    recOf (runA minOcc st evs) s c = some r :=
  runA_recOf_frozen minOcc st evs s c r h hmod

theorem modifiedFlagMonotonic_witness :
    recOf (runA 2 initSt [Ev.assign 0 (.member (.ident "a") (.static "b"))]) 0 ["a", "b"]
      = some ⟨0, [], true⟩
    ∧ (⟨0, [], true⟩ : Record).modified = true
    ∧ recOf (runA 2 (runA 2 initSt [Ev.assign 0 (.member (.ident "a") (.static "b"))])
        [Ev.occ 0 7 (.member (.member (.ident "a") (.static "b")) (.static "c")) false,
          Ev.occ 0 8 (.member (.member (.ident "a") (.static "b")) (.static "c")) false])
        0 ["a", "b"] = some ⟨0, [], true⟩ :=
  ⟨by decide, by decide,
    modifiedFlagMonotonic 2 (runA 2 initSt [Ev.assign 0 (.member (.ident "a") (.static "b"))])
      [Ev.occ 0 7 (.member (.member (.ident "a") (.static "b")) (.static "c")) false,
        Ev.occ 0 8 (.member (.member (.ident "a") (.static "b")) (.static "c")) false]
      0 ["a", "b"] ⟨0, [], true⟩ (by decide) (by decide)⟩

/-- Claim C4: a chain containing a computed (bracketed) access anywhere in
its spine — whether the key is a static literal or dynamic — is rejected
whole at canonicalization (`analyzeChain` returns `null`, not a truncated
chain), so such an occurrence is a no-op for the engine: it is never
tracked and never reported, for every repetition count. -/
theorem computedAccessExclusion (e : Expr) (hc : spineObjHasComputed e = true)
    (minOcc : Nat) (st : St) (evs1 evs2 : List Ev) (s i : Nat) (pim : Bool) :
    analyzeChain e = none
    ∧ runA minOcc st (evs1 ++ Ev.occ s i e pim :: evs2) = runA minOcc st (evs1 ++ evs2) := by
  have hnone : analyzeChain e = none :=
    analyzeChain_eq_none_of_parts e (analyzeParts_eq_none_of_computed e hc)
  exact ⟨hnone, runA_occ_skip minOcc st evs1 evs2 s i e pim hnone⟩

theorem computedAccessExclusion_witness :
    spineObjHasComputed
        (.member (.member (.ident "data") (.litIndex "0")) (.static "value")) = true
    ∧ (analyzeChain (.member (.member (.ident "data") (.litIndex "0")) (.static "value"))
        = none
      ∧ runA 3 initSt ([] ++ Ev.occ 0 1
          (.member (.member (.ident "data") (.litIndex "0")) (.static "value")) false :: [])
        = runA 3 initSt ([] ++ [])) :=
  ⟨by decide,
    computedAccessExclusion
      (.member (.member (.ident "data") (.litIndex "0")) (.static "value"))
      (by decide) 3 initSt [] [] 0 1 false⟩

/-- Claim C9: an access expression whose root (the node the collection loop
stops at) is not a plain identifier or `this` — in particular any chain
passing through a call result, such as `a.getB().c` — is rejected whole at
canonicalization, so it is never tracked and never reported. -/
theorem nonPlainRootExclusion (e : Expr) (hr : isPlainRoot (chainRoot e) = false)
    (minOcc : Nat) (st : St) (evs1 evs2 : List Ev) (s i : Nat) (pim : Bool) :
    analyzeChain e = none
    ∧ runA minOcc st (evs1 ++ Ev.occ s i e pim :: evs2) = runA minOcc st (evs1 ++ evs2) := by
  have hnone : analyzeChain e = none :=
    analyzeChain_eq_none_of_parts e (analyzeParts_eq_none_of_root e hr)
  exact ⟨hnone, runA_occ_skip minOcc st evs1 evs2 s i e pim hnone⟩

theorem nonPlainRootExclusion_witness :
    isPlainRoot (chainRoot
        (.member (.call (.member (.ident "a") (.static "getB")) "") (.static "c"))) = false
    ∧ (analyzeChain
        (.member (.call (.member (.ident "a") (.static "getB")) "") (.static "c")) = none
      ∧ runA 3 initSt ([] ++ Ev.occ 0 1
          (.member (.call (.member (.ident "a") (.static "getB")) "") (.static "c"))
          false :: [])
        = runA 3 initSt ([] ++ [])) :=
  ⟨by decide,
    nonPlainRootExclusion
      (.member (.call (.member (.ident "a") (.static "getB")) "") (.static "c"))
      (by decide) 3 initSt [] [] 0 1 false⟩

/-- Claim C5: occurrence counting never crosses scope boundaries — the
chain table of a scope after a run is exactly the table obtained by running
only that scope's events — and a chain that occurs once in each of two
distinct scopes produces no diagnostic in either. -/
theorem scopeIsolation (minOcc : Nat) (hmin : 2 ≤ minOcc) (evs : List Ev) (s : Nat)
    (s1 s2 i1 i2 : Nat) (e : Expr) (hs : s1 ≠ s2) :
    alookup (runA minOcc initSt evs).scopes s
      = alookup (runA minOcc initSt (evs.filter (fun ev => ev.scope == s))).scopes s
    ∧ (runA minOcc initSt [Ev.occ s1 i1 e false, Ev.occ s2 i2 e false]).diags = [] := by
  constructor
  · exact runA_scopes_filter minOcc initSt initSt evs s rfl
  · have h1 := stepA_occ_fresh minOcc initSt s1 i1 e false hmin rfl
    have hsc2 : alookup (stepA minOcc initSt (Ev.occ s1 i1 e false)).scopes s2 = none := by
      rw [stepA_scopes_other minOcc initSt (Ev.occ s1 i1 e false) s2
        (fun hh => hs hh.symm)]
      rfl
    have h2 := stepA_occ_fresh minOcc (stepA minOcc initSt (Ev.occ s1 i1 e false))
      s2 i2 e false hmin hsc2
    show (stepA minOcc (stepA minOcc initSt (Ev.occ s1 i1 e false))
      (Ev.occ s2 i2 e false)).diags = []
    rw [h2.1, h1.1]
    rfl

theorem scopeIsolation_witness :
    2 ≤ 2 ∧ (0 : Nat) ≠ 1
    ∧ (alookup (runA 2 initSt [Ev.occ 0 1 (.member (.member (.ident "obj") (.static "foo"))
          (.static "bar")) false, Ev.occ 1 2 (.member (.member (.ident "obj") (.static "foo"))
          (.static "bar")) false]).scopes 0
        = alookup (runA 2 initSt ([Ev.occ 0 1 (.member (.member (.ident "obj") (.static "foo"))
          (.static "bar")) false, Ev.occ 1 2 (.member (.member (.ident "obj") (.static "foo"))
          (.static "bar")) false].filter (fun ev => ev.scope == 0))).scopes 0
      ∧ (runA 2 initSt [Ev.occ 0 1 (.member (.member (.ident "obj") (.static "foo"))
          (.static "bar")) false, Ev.occ 1 2 (.member (.member (.ident "obj") (.static "foo"))
          (.static "bar")) false]).diags = []) :=
  ⟨by decide, by decide,
    scopeIsolation 2 (by decide)
      [Ev.occ 0 1 (.member (.member (.ident "obj") (.static "foo")) (.static "bar")) false,
        Ev.occ 1 2 (.member (.member (.ident "obj") (.static "foo")) (.static "bar")) false]
      0 0 1 1 2
      (.member (.member (.ident "obj") (.static "foo")) (.static "bar")) (by decide)⟩

/-- Claim C1: once a chain or an ancestor-in-path of it is the target of an
assignment, an increment/decrement, or a call on it, no later diagnostic of
that scope caches the chain across the mutation point.  Concretely, for a
mutation of `lhs` in scope `s` and any chain `d` that equals or extends
(past a `.` or `[`) some hierarchy element `h` of `lhs`:
(i) any record of `d` present at the mutation is marked modified and stays
exactly frozen to the end, (ii) no diagnostic for `(s, d)` is emitted after
the mutation, (iii) a record of `d` created only after the mutation caches
only occurrence nodes of post-mutation events, and (iv) the mutated chain
itself always has a record at the mutation, pre-marked modified — created
as `{count: 0, nodes: [], modified: true}` when no record existed yet, so a
later first occurrence can never accumulate toward the threshold. -/
theorem mutationSafety (minOcc : Nat) (evs1 evs2 : List Ev) (mutEv : Ev)
    (s : Nat) (lhs : Expr) (ci : ChainInfo)
    (hkind : mutEv = Ev.assign s lhs ∨ mutEv = Ev.upd s lhs ∨ mutEv = Ev.call s lhs)
    (hmem : lhs.isMember = true)
    (hci : analyzeChain lhs = some ci)
    (h : ChainKey) (hh : h ∈ ci.hierarchy)
    (d : ChainKey) (hd : chainMatches d h = true) :
    (∀ r, recOf (runA minOcc initSt (evs1 ++ [mutEv])) s d = some r →
        r.modified = true
        ∧ recOf (runA minOcc initSt (evs1 ++ mutEv :: evs2)) s d = some r)
    ∧ (∀ r, recOf (runA minOcc initSt (evs1 ++ [mutEv])) s d = some r →
        ∀ dg ∈ (runA minOcc initSt (evs1 ++ mutEv :: evs2)).diags,
          dg ∈ (runA minOcc initSt (evs1 ++ [mutEv])).diags
          ∨ ¬(dg.scope = s ∧ dg.chain = d))
    ∧ (recOf (runA minOcc initSt (evs1 ++ [mutEv])) s d = none →
        ∀ r, recOf (runA minOcc initSt (evs1 ++ mutEv :: evs2)) s d = some r →
          ∀ x ∈ r.nodes, x ∈ occIds evs2)
    ∧ (∃ r, recOf (runA minOcc initSt (evs1 ++ [mutEv])) s h = some r
        ∧ r.modified = true)
    ∧ (recOf (runA minOcc initSt evs1) s h = none →
        recOf (runA minOcc initSt (evs1 ++ [mutEv])) s h = some ⟨0, [], true⟩) := by
  have hsplit1 : runA minOcc initSt (evs1 ++ [mutEv])
      = stepA minOcc (runA minOcc initSt evs1) mutEv := by
    rw [runA_append]
    rfl
  have hsplit2 : runA minOcc initSt (evs1 ++ mutEv :: evs2)
      = runA minOcc (stepA minOcc (runA minOcc initSt evs1) mutEv) evs2 := by
    rw [show evs1 ++ mutEv :: evs2 = (evs1 ++ [mutEv]) ++ evs2 by simp, runA_append,
      hsplit1]
  have hmutstep : stepA minOcc (runA minOcc initSt evs1) mutEv
      = handleMut s lhs (runA minOcc initSt evs1) := by
    rcases hkind with rfl | rfl | rfl <;> rfl
  have hMchar : ∀ d', recOf (handleMut s lhs (runA minOcc initSt evs1)) s d'
      = alookup (ci.hierarchy.foldl (fun acc c => trackModification c acc)
          ((alookup (runA minOcc initSt evs1).scopes s).getD [])) d' :=
    fun d' => handleMut_recOf_self s lhs (runA minOcc initSt evs1) ci hmem hci d'
  have hA : ∀ r, recOf (handleMut s lhs (runA minOcc initSt evs1)) s d = some r →
      r.modified = true := by
    intro r hr
    rw [hMchar d] at hr
    exact foldl_trackModification_marks ci.hierarchy _ d ⟨h, hh, hd⟩ r hr
  refine ⟨?_, ?_, ?_, ?_, ?_⟩
  · intro r hr
    rw [hsplit1, hmutstep] at hr
    refine ⟨hA r hr, ?_⟩
    rw [hsplit2, hmutstep]
    exact runA_recOf_frozen minOcc _ evs2 s d r hr (hA r hr)
  · intro r hr dg hdg
    rw [hsplit1, hmutstep] at hr
    rw [hsplit2, hmutstep] at hdg
    rcases runA_no_new_diag_modified minOcc _ evs2 s d r hr (hA r hr) dg hdg with
      hin | hright
    · left
      rw [hsplit1, hmutstep]
      exact hin
    · exact Or.inr hright
  · intro hnone r hr
    rw [hsplit1, hmutstep] at hnone
    rw [hsplit2, hmutstep] at hr
    exact runA_new_record minOcc _ evs2 s d hnone r hr
  · rw [hsplit1, hmutstep, hMchar h]
    exact foldl_trackModification_self ci.hierarchy _ h hh
  · intro hpre
    rw [hsplit1, hmutstep, hMchar h]
    have hnodup : ci.hierarchy.Nodup := by
      obtain ⟨ps, _, _, hhier, _⟩ := analyzeChain_spec lhs ci hci
      rw [hhier]
      exact nodup_hierList ps
    apply foldl_trackModification_fresh ci.hierarchy _ h hh hnodup
    rw [← recOf_eq_getD]
    exact hpre

theorem mutationSafety_witness :
    Expr.isMember (.member (.ident "a") (.static "b")) = true
    ∧ analyzeChain (.member (.ident "a") (.static "b"))
        = some ⟨[["a"], ["a", "b"]], ["a", "b"]⟩
    ∧ ["a", "b"] ∈ (⟨[["a"], ["a", "b"]], ["a", "b"]⟩ : ChainInfo).hierarchy
    ∧ chainMatches ["a", "b", "c"] ["a", "b"] = true
    ∧ recOf (runA 2 initSt ([] ++ [Ev.assign 0 (.member (.ident "a") (.static "b"))]))
        0 ["a", "b"] = some ⟨0, [], true⟩ :=
  ⟨by decide, by decide, by decide, by decide,
    (mutationSafety 2 [] [Ev.occ 0 5 (.member (.member (.ident "a") (.static "b"))
        (.static "c")) false] (Ev.assign 0 (.member (.ident "a") (.static "b")))
      0 (.member (.ident "a") (.static "b")) ⟨[["a"], ["a", "b"]], ["a", "b"]⟩
      (Or.inl rfl) (by decide) (by decide)
      ["a", "b"] (by decide) ["a", "b", "c"] (by decide)).2.2.2.2 (by decide)⟩

/-! ## C6: at most one diagnostic per (scope, chain), anchored at the first
recorded occurrence -/

theorem head_append_some {α : Type} (l1 l2 : List α) (a : α)
    (h : l1.head? = some a) : (l1 ++ l2).head? = some a := by
  cases l1 <;> simp_all

theorem head_eq_getD (l : List Nat) (h : l ≠ []) :
    l.head? = some (l.getD 0 0) := by
  cases l <;> simp_all

theorem stepA_anchor_preserve (minOcc : Nat) (st : St) (ev : Ev) (s : Nat)
    (d : ChainKey) (r : Record) (a : Nat) (h : recOf st s d = some r)
    (ha : r.nodes.head? = some a) :
    ∃ r', recOf (stepA minOcc st ev) s d = some r' ∧ r'.nodes.head? = some a := by
  obtain ⟨r', h1, l, h2, _⟩ := stepA_nodes_extend minOcc st ev s d r h
  exact ⟨r', h1, by rw [h2]; exact head_append_some _ _ _ ha⟩

theorem stepA_report_shape (minOcc : Nat) (st : St) (ev : Ev) :
    ((stepA minOcc st ev).diags = st.diags
      ∧ (stepA minOcc st ev).reported = st.reported)
    ∨ ∃ dgN, (stepA minOcc st ev).diags = st.diags ++ [dgN]
        ∧ (stepA minOcc st ev).reported = st.reported ++ [dgN.chain]
        ∧ dgN.chain ∉ st.reported
        ∧ ∃ r, recOf (stepA minOcc st ev) dgN.scope dgN.chain = some r
            ∧ r.nodes.head? = some dgN.anchor := by
  cases ev with
  | assign s2 lhs =>
    exact Or.inl ⟨handleMut_diags s2 lhs st, handleMut_reported s2 lhs st⟩
  | upd s2 a => exact Or.inl ⟨handleMut_diags s2 a st, handleMut_reported s2 a st⟩
  | call s2 c2 => exact Or.inl ⟨handleMut_diags s2 c2 st, handleMut_reported s2 c2 st⟩
  | occ s2 i e pim =>
    simp only [stepA, processMemberExpression]
    split_ifs with hpim
    · exact Or.inl ⟨rfl, rfl⟩
    · cases hce : analyzeChain e with
      | none => exact Or.inl ⟨rfl, rfl⟩
      | some ci =>
        simp only []
        split_ifs with hg
        · generalize hres : procLoop minOcc i ci.hierarchy
            ((alookup st.scopes s2).getD []) [] = res at hg
          have hgp := hg
          simp only [Bool.and_eq_true, Bool.not_eq_true'] at hgp
          have hnotmem : res.2 ∉ st.reported := by
            have h2 := hgp.2
            simp [List.elem_iff] at h2
            exact h2
          have hne : res.2 ≠ ([] : ChainKey) := by
            intro hnil
            have h1 := hgp.1
            rw [hnil] at h1
            simp [chainChars] at h1
          obtain ⟨r', hr', hrn⟩ := procLoop_reported minOcc i ci.hierarchy
            ((alookup st.scopes s2).getD []) [] (by rw [hres]; exact hne)
          rw [hres] at hr'
          refine Or.inr ⟨_, rfl, rfl, hnotmem, r', ?_, ?_⟩
          · show recOf ⟨aset st.scopes s2 _, _, _⟩ s2 _ = some r'
            rw [recOf_set_self]
            exact hr'
          · show r'.nodes.head? = some (((alookup res.1 res.2).getD
              defaultRec).nodes.getD 0 0)
            rw [hr']
            simp only [Option.getD_some]
            exact head_eq_getD r'.nodes hrn
        · exact Or.inl ⟨rfl, rfl⟩

theorem runA_diag_invariant (minOcc : Nat) (evs : List Ev) :
    ∀ st : St,
      (∀ dg ∈ st.diags, dg.chain ∈ st.reported) →
      ((st.diags.map Diag.chain).Nodup) →
      (∀ dg ∈ st.diags, ∃ r, recOf st dg.scope dg.chain = some r
          ∧ r.nodes.head? = some dg.anchor) →
      (∀ dg ∈ (runA minOcc st evs).diags, dg.chain ∈ (runA minOcc st evs).reported)
      ∧ (((runA minOcc st evs).diags.map Diag.chain).Nodup)
      ∧ (∀ dg ∈ (runA minOcc st evs).diags,
          ∃ r, recOf (runA minOcc st evs) dg.scope dg.chain = some r
            ∧ r.nodes.head? = some dg.anchor) := by
  induction evs with
  | nil => exact fun st h1 h2 h3 => ⟨h1, h2, h3⟩
  | cons ev rest ih =>
    intro st h1 h2 h3
    rw [runA_cons]
    have hinv : (∀ dg ∈ (stepA minOcc st ev).diags,
          dg.chain ∈ (stepA minOcc st ev).reported)
        ∧ (((stepA minOcc st ev).diags.map Diag.chain).Nodup)
        ∧ (∀ dg ∈ (stepA minOcc st ev).diags, ∃ r,
            recOf (stepA minOcc st ev) dg.scope dg.chain = some r
              ∧ r.nodes.head? = some dg.anchor) := by
      rcases stepA_report_shape minOcc st ev with ⟨hd, hr⟩ |
        ⟨dgN, hd, hr, hnrep, rN, hrecN, hanchN⟩
      · refine ⟨?_, ?_, ?_⟩
        · rw [hd, hr]
          exact h1
        · rw [hd]
          exact h2
        · rw [hd]
          intro dg hdg
          obtain ⟨r, hrec, hanch⟩ := h3 dg hdg
          exact stepA_anchor_preserve minOcc st ev dg.scope dg.chain r dg.anchor
            hrec hanch
      · refine ⟨?_, ?_, ?_⟩
        · rw [hd, hr]
          intro dg hdg
          rcases List.mem_append.mp hdg with hdg | hdg
          · exact List.mem_append_left _ (h1 dg hdg)
          · rw [List.mem_singleton.mp hdg]
            exact List.mem_append_right _ (by simp)
        · rw [hd, List.map_append]
          refine h2.append (List.nodup_singleton _) ?_
          intro a ha hb
          simp only [List.map_cons, List.map_nil, List.mem_singleton] at hb
          subst hb
          obtain ⟨dg0, hdg0, hchain⟩ := List.mem_map.mp ha
          exact hnrep (hchain ▸ h1 dg0 hdg0)
        · rw [hd]
          intro dg hdg
          rcases List.mem_append.mp hdg with hdg | hdg
          · obtain ⟨r, hrec, hanch⟩ := h3 dg hdg
            exact stepA_anchor_preserve minOcc st ev dg.scope dg.chain r dg.anchor
              hrec hanch
          · rw [List.mem_singleton.mp hdg]
            exact ⟨rN, hrecN, hanchN⟩
    exact ih (stepA minOcc st ev) hinv.1 hinv.2.1 hinv.2.2

/-- C6: in any run of the member-access engine, at most one diagnostic is ever
emitted for each (scope, chain) pair — any two emitted diagnostics differ in
scope or chain — and every diagnostic is anchored at the first recorded
occurrence node of its chosen prefix (the head of the record's occurrence
list). -/
theorem diagnosticUniqueness (minOcc : Nat) (evs : List Ev) :
    ((runA minOcc initSt evs).diags.Pairwise
      (fun d1 d2 => ¬(d1.scope = d2.scope ∧ d1.chain = d2.chain)))
    ∧ ∀ dg ∈ (runA minOcc initSt evs).diags,
        ∃ r, recOf (runA minOcc initSt evs) dg.scope dg.chain = some r
          ∧ r.nodes.head? = some dg.anchor := by
  have key := runA_diag_invariant minOcc evs initSt
    (by intro dg hdg; simp [initSt] at hdg)
    (by simp [initSt])
    (by intro dg hdg; simp [initSt] at hdg)
  refine ⟨?_, key.2.2⟩
  have hnd := key.2.1
  have hp := List.pairwise_map.mp hnd
  exact hp.imp (fun hne hand => hne hand.2)

/-! ## C2: threshold boundary machinery -/

theorem getLastD_congr {α : Type} (l : List α) (d1 d2 : α) (h : l ≠ []) :
    l.getLastD d1 = l.getLastD d2 := by
  cases l with
  | nil => exact absurd rfl h
  | cons a t => rw [List.getLastD_cons, List.getLastD_cons]

theorem chainChars_take_len_lt (ps : List String) (m n : Nat) (h0 : 0 < m)
    (hmn : m < n) (hn : n ≤ ps.length) :
    (chainChars (ps.take m)).length < (chainChars (ps.take n)).length := by
  have hsplit : ps.take n = ps.take m ++ (ps.take n).drop m := by
    conv_lhs => rw [← List.take_append_drop m (ps.take n)]
    rw [List.take_take, Nat.min_eq_left (Nat.le_of_lt hmn)]
  rw [hsplit]
  apply chainChars_len_lt
  · intro h
    have hl : (ps.take m).length = 0 := by rw [h]; rfl
    rw [List.length_take] at hl
    omega
  · intro h
    have hl : ((ps.take n).drop m).length = 0 := by rw [h]; rfl
    rw [List.length_drop, List.length_take] at hl
    omega

theorem procLoop_cons_nodot (minOcc i : Nat) (c : ChainKey) (rest : List ChainKey)
    (sd : ScopeChains) (long : ChainKey)
    (hdot : (chainChars c).contains '.' = false) :
    procLoop minOcc i (c :: rest) sd long = procLoop minOcc i rest sd long := by
  simp only [procLoop]
  rw [if_pos (by rw [hdot]; rfl)]

theorem procLoop_cons_pass (minOcc i : Nat) (c : ChainKey) (rest : List ChainKey)
    (sd : ScopeChains) (long : ChainKey) (k : Nat) (ids : List Nat)
    (hdot : (chainChars c).contains '.' = true)
    (hbr : (chainChars c).contains '[' = false)
    (hlook : (alookup sd c).getD defaultRec = ⟨k, ids, false⟩) :
    procLoop minOcc i (c :: rest) sd long
      = procLoop minOcc i rest (aset sd c ⟨k + 1, ids ++ [i], false⟩)
          (if minOcc ≤ k + 1 ∧ (chainChars long).length < (chainChars c).length
           then c else long) := by
  simp only [procLoop]
  rw [if_neg (by rw [hdot]; simp)]
  rw [if_neg (by rw [hbr]; simp)]
  rw [if_neg (by rw [hlook]; simp)]
  rw [hlook]

theorem procLoop_uniform (minOcc i : Nat) (hs : List ChainKey) :
    ∀ (sd : ScopeChains) (long : ChainKey) (k : Nat) (ids : List Nat),
      hs.Nodup →
      (∀ c ∈ hs, (chainChars c).contains '.' = true
          ∧ (chainChars c).contains '[' = false) →
      hs.Pairwise (fun a b => (chainChars a).length < (chainChars b).length) →
      (∀ c ∈ hs, (chainChars long).length < (chainChars c).length) →
      (∀ c ∈ hs, (alookup sd c).getD defaultRec = ⟨k, ids, false⟩) →
      (∀ c ∈ hs, alookup (procLoop minOcc i hs sd long).1 c
          = some ⟨k + 1, ids ++ [i], false⟩)
      ∧ (∀ d : ChainKey, d ∉ hs →
          alookup (procLoop minOcc i hs sd long).1 d = alookup sd d)
      ∧ (procLoop minOcc i hs sd long).2
          = (if minOcc ≤ k + 1 then hs.getLastD long else long) := by
  induction hs with
  | nil =>
    intro sd long k ids _ _ _ _ _
    refine ⟨by simp, fun d _ => rfl, ?_⟩
    simp only [procLoop]
    split_ifs <;> rfl
  | cons c rest ih =>
    intro sd long k ids hnd hpass hpw hlg hlook
    have hcm : c ∉ rest := (List.nodup_cons.mp hnd).1
    have hnd' := (List.nodup_cons.mp hnd).2
    have hpc := hpass c (List.mem_cons_self c rest)
    have hlc := hlook c (List.mem_cons_self c rest)
    rw [procLoop_cons_pass minOcc i c rest sd long k ids hpc.1 hpc.2 hlc]
    have hpwc := List.pairwise_cons.mp hpw
    have hlt : (chainChars long).length < (chainChars c).length :=
      hlg c (List.mem_cons_self c rest)
    have hlook' : ∀ c' ∈ rest, (alookup (aset sd c ⟨k + 1, ids ++ [i], false⟩)
        c').getD defaultRec = ⟨k, ids, false⟩ := by
      intro c' hc'
      rw [alookup_aset_ne _ _ _ _
        (show c' ≠ c from fun h => hcm (by rw [← h]; exact hc'))]
      exact hlook c' (List.mem_cons_of_mem c hc')
    by_cases hth : minOcc ≤ k + 1
    · rw [if_pos ⟨hth, hlt⟩]
      obtain ⟨ih1, ih2, ih3⟩ := ih (aset sd c ⟨k + 1, ids ++ [i], false⟩) c k ids
        hnd' (fun c' hc' => hpass c' (List.mem_cons_of_mem c hc'))
        hpwc.2 (fun c' hc' => hpwc.1 c' hc') hlook'
      refine ⟨?_, ?_, ?_⟩
      · intro c' hc'
        rcases List.mem_cons.mp hc' with h | h
        · subst h
          rw [ih2 c' hcm]
          exact alookup_aset_self sd c' _
        · exact ih1 c' h
      · intro d hd
        rw [ih2 d (fun h => hd (List.mem_cons_of_mem c h)),
          alookup_aset_ne _ _ _ _
            (show d ≠ c from fun h => hd (by rw [h]; exact List.mem_cons_self c rest))]
      · rw [ih3, if_pos hth, if_pos hth, List.getLastD_cons]
    · rw [if_neg (fun h => hth h.1)]
      obtain ⟨ih1, ih2, ih3⟩ := ih (aset sd c ⟨k + 1, ids ++ [i], false⟩) long k ids
        hnd' (fun c' hc' => hpass c' (List.mem_cons_of_mem c hc'))
        hpwc.2 (fun c' hc' => hlg c' (List.mem_cons_of_mem c hc')) hlook'
      refine ⟨?_, ?_, ?_⟩
      · intro c' hc'
        rcases List.mem_cons.mp hc' with h | h
        · subst h
          rw [ih2 c' hcm]
          exact alookup_aset_self sd c' _
        · exact ih1 c' h
      · intro d hd
        rw [ih2 d (fun h => hd (List.mem_cons_of_mem c h)),
          alookup_aset_ne _ _ _ _
            (show d ≠ c from fun h => hd (by rw [h]; exact List.mem_cons_self c rest))]
      · rw [ih3, if_neg hth, if_neg hth]

theorem stepA_uniform_round (minOcc : Nat) (s j : Nat) (e : Expr) (st : St)
    (ci : ChainInfo) (hci : analyzeChain e = some ci)
    (p : String) (rest : List String) (hps : ci.fullChain = p :: rest)
    (hwfp : '.' ∉ p.data) (wf : ∀ q ∈ ci.fullChain, '[' ∉ q.data)
    (hrest : rest ≠ []) (hrep : st.reported = [])
    (k : Nat) (ids : List Nat)
    (htbl : ∀ c ∈ (List.range rest.length).map (fun i => (p :: rest).take (i + 2)),
        (alookup ((alookup st.scopes s).getD []) c).getD defaultRec
          = ⟨k, ids, false⟩) :
    (∀ c ∈ (List.range rest.length).map (fun i => (p :: rest).take (i + 2)),
        (alookup ((alookup (stepA minOcc st (Ev.occ s j e false)).scopes s).getD [])
            c).getD defaultRec = ⟨k + 1, ids ++ [j], false⟩)
    ∧ (if minOcc ≤ k + 1
       then (stepA minOcc st (Ev.occ s j e false)).reported = [p :: rest]
          ∧ (stepA minOcc st (Ev.occ s j e false)).diags
              = st.diags ++ [⟨s, p :: rest, (ids ++ [j]).getD 0 0, k + 1⟩]
       else (stepA minOcc st (Ev.occ s j e false)).reported = []
          ∧ (stepA minOcc st (Ev.occ s j e false)).diags = st.diags) := by
  obtain ⟨ps0, hparts, hlen2, hhier0, hfull⟩ := analyzeChain_spec e ci hci
  have hps0 : ps0 = p :: rest := by rw [← hfull, hps]
  subst hps0
  have hhier : ci.hierarchy = [p] :: (List.range rest.length).map
      (fun i => (p :: rest).take (i + 2)) := by rw [hhier0, hierList_cons]
  have hlenr : rest.length ≠ 0 := fun h => hrest (List.length_eq_zero.mp h)
  have hnd : ((List.range rest.length).map
      (fun i => (p :: rest).take (i + 2))).Nodup := by
    have h0 := nodup_hierList (p :: rest)
    rw [hierList_cons] at h0
    exact (List.nodup_cons.mp h0).2
  have hpass : ∀ c ∈ (List.range rest.length).map (fun i => (p :: rest).take (i + 2)),
      (chainChars c).contains '.' = true ∧ (chainChars c).contains '[' = false := by
    intro c hc
    obtain ⟨i, hi, hceq⟩ := List.mem_map.mp hc
    rw [List.mem_range] at hi
    rw [← hceq, List.take_succ_cons]
    constructor
    · cases hrt : rest.take (i + 1) with
      | nil =>
        have hl0 : (rest.take (i + 1)).length = 0 := by rw [hrt]; rfl
        rw [List.length_take] at hl0
        omega
      | cons a l => exact chainChars_contains_dot p a l
    · refine chainChars_not_contains _ '[' (by decide) ?_
      intro q hq
      rcases List.mem_cons.mp hq with h | h
      · exact wf q (by rw [hps, h]; exact List.mem_cons_self p rest)
      · exact wf q (by
          rw [hps]
          exact List.mem_cons_of_mem p (List.take_subset _ _ h))
  have hpw : ((List.range rest.length).map
      (fun i => (p :: rest).take (i + 2))).Pairwise
      (fun a b => (chainChars a).length < (chainChars b).length) := by
    rw [List.pairwise_iff_getElem]
    intro a b ha hb hab
    simp only [List.length_map, List.length_range] at ha hb
    simp only [List.getElem_map, List.getElem_range]
    exact chainChars_take_len_lt (p :: rest) (a + 2) (b + 2) (by omega) (by omega)
      (by simp; omega)
  have hbase : ∀ c ∈ (List.range rest.length).map (fun i => (p :: rest).take (i + 2)),
      (chainChars ([] : ChainKey)).length < (chainChars c).length := by
    intro c hc
    have hd := (hpass c hc).1
    have hne : chainChars c ≠ [] := by
      intro h0
      rw [h0] at hd
      simp [List.contains] at hd
    have h00 : (chainChars ([] : ChainKey)).length = 0 := rfl
    rw [h00]
    exact List.length_pos.mpr hne
  obtain ⟨u1, u2, u3⟩ := procLoop_uniform minOcc j
    ((List.range rest.length).map (fun i => (p :: rest).take (i + 2)))
    ((alookup st.scopes s).getD []) [] k ids hnd hpass hpw hbase htbl
  have hlastmem : (p :: rest) ∈ (List.range rest.length).map
      (fun i => (p :: rest).take (i + 2)) := by
    refine List.mem_map.mpr ⟨rest.length - 1, List.mem_range.mpr (by omega), ?_⟩
    show (p :: rest).take (rest.length - 1 + 2) = p :: rest
    have h1 : rest.length - 1 + 2 = rest.length + 1 := by omega
    rw [h1]
    have h2 : (p :: rest).length = rest.length + 1 := by simp
    rw [← h2, List.take_length]
  have htlne : (List.range rest.length).map
      (fun i => (p :: rest).take (i + 2)) ≠ [] := by
    simp
    exact hrest
  have hlastD : ((List.range rest.length).map
      (fun i => (p :: rest).take (i + 2))).getLastD [] = p :: rest := by
    have h0 := hierList_getLastD (p :: rest) (by simp)
    rw [hierList_cons, List.getLastD_cons] at h0
    rw [getLastD_congr _ [] [p] htlne]
    exact h0
  have hemp : (chainChars (p :: rest)).isEmpty = false := by
    cases rest with
    | nil => exact absurd rfl hrest
    | cons r0 rr => exact chainChars_dotted_ne_nil p r0 rr
  by_cases hth : minOcc ≤ k + 1
  · have hres2 : (procLoop minOcc j ((List.range rest.length).map
        (fun i => (p :: rest).take (i + 2))) ((alookup st.scopes s).getD []) []).2
        = p :: rest := by
      rw [u3, if_pos hth]
      exact hlastD
    have hstep : stepA minOcc st (Ev.occ s j e false)
        = ⟨aset st.scopes s (procLoop minOcc j ((List.range rest.length).map
              (fun i => (p :: rest).take (i + 2))) ((alookup st.scopes s).getD []) []).1,
           [p :: rest],
           st.diags ++ [⟨s, p :: rest, (ids ++ [j]).getD 0 0, k + 1⟩]⟩ := by
      show processMemberExpression minOcc s j false e st = _
      simp only [processMemberExpression, hci, Bool.false_eq_true, if_false]
      rw [hhier, procLoop_cons_nodot minOcc j [p] _ _ []
        (chainChars_single_not_dot p hwfp)]
      rw [hres2, hrep, hemp]
      split_ifs with hg
      · rw [u1 (p :: rest) hlastmem]
        rfl
      · exact absurd (by rfl) hg
    refine ⟨?_, ?_⟩
    · intro c hc
      rw [hstep]
      show (alookup ((alookup (aset st.scopes s _) s).getD []) c).getD defaultRec = _
      rw [alookup_aset_self]
      show (alookup (procLoop minOcc j ((List.range rest.length).map
          (fun i => (p :: rest).take (i + 2))) ((alookup st.scopes s).getD []) []).1
        c).getD defaultRec = _
      rw [u1 c hc]
      rfl
    · rw [if_pos hth, hstep]
      exact ⟨rfl, rfl⟩
  · have hres2 : (procLoop minOcc j ((List.range rest.length).map
        (fun i => (p :: rest).take (i + 2))) ((alookup st.scopes s).getD []) []).2
        = [] := by
      rw [u3, if_neg hth]
    have hstep : stepA minOcc st (Ev.occ s j e false)
        = { st with scopes := aset st.scopes s (procLoop minOcc j
            ((List.range rest.length).map (fun i => (p :: rest).take (i + 2)))
            ((alookup st.scopes s).getD []) []).1 } := by
      show processMemberExpression minOcc s j false e st = _
      simp only [processMemberExpression, hci, Bool.false_eq_true, if_false]
      rw [hhier, procLoop_cons_nodot minOcc j [p] _ _ []
        (chainChars_single_not_dot p hwfp)]
      rw [hres2]
      split_ifs with hg
      · simp [chainChars] at hg
      · rfl
    refine ⟨?_, ?_⟩
    · intro c hc
      rw [hstep]
      show (alookup ((alookup (aset st.scopes s _) s).getD []) c).getD defaultRec = _
      rw [alookup_aset_self]
      show (alookup (procLoop minOcc j ((List.range rest.length).map
          (fun i => (p :: rest).take (i + 2))) ((alookup st.scopes s).getD []) []).1
        c).getD defaultRec = _
      rw [u1 c hc]
      rfl
    · rw [if_neg hth, hstep]
      exact ⟨hrep, rfl⟩

theorem runA_uniform_inv (minOcc : Nat) (s : Nat) (e : Expr)
    (ci : ChainInfo) (hci : analyzeChain e = some ci)
    (p : String) (rest : List String) (hps : ci.fullChain = p :: rest)
    (hwfp : '.' ∉ p.data) (wf : ∀ q ∈ ci.fullChain, '[' ∉ q.data)
    (hrest : rest ≠ []) :
    ∀ j, j < minOcc →
      (runA minOcc initSt ((List.range j).map
          (fun t => Ev.occ s t e false))).reported = []
      ∧ (runA minOcc initSt ((List.range j).map
          (fun t => Ev.occ s t e false))).diags = []
      ∧ ∀ c ∈ (List.range rest.length).map (fun i => (p :: rest).take (i + 2)),
          (alookup ((alookup (runA minOcc initSt ((List.range j).map
              (fun t => Ev.occ s t e false))).scopes s).getD []) c).getD defaultRec
            = ⟨j, List.range j, false⟩ := by
  intro j
  induction j with
  | zero =>
    intro _
    refine ⟨rfl, rfl, ?_⟩
    intro c _
    rfl
  | succ j ihj =>
    intro hj
    have hj' : j < minOcc := by omega
    obtain ⟨ih1, ih2, ih3⟩ := ihj hj'
    have htrace : (List.range (j + 1)).map (fun t => Ev.occ s t e false)
        = (List.range j).map (fun t => Ev.occ s t e false)
          ++ [Ev.occ s j e false] := by
      rw [List.range_succ, List.map_append]
      rfl
    rw [htrace, runA_append]
    have hrun1 : ∀ st0 : St, runA minOcc st0 [Ev.occ s j e false]
        = stepA minOcc st0 (Ev.occ s j e false) := fun st0 => rfl
    rw [hrun1]
    obtain ⟨c1, c2⟩ := stepA_uniform_round minOcc s j e _ ci hci p rest hps hwfp
      wf hrest ih1 j (List.range j) ih3
    have hth : ¬ minOcc ≤ j + 1 := by omega
    rw [if_neg hth] at c2
    refine ⟨c2.1, ?_, ?_⟩
    · rw [c2.2, ih2]
    · intro c hc
      have hc1 := c1 c hc
      rw [List.range_succ]
      exact hc1

/-- C2: for a canonicalizable chain (analyzeChain succeeds, segments free of
`.` and `[`) accessed only in unmodified form in one scope, exactly
minOccurrences − 1 occurrences yield no diagnostic, and exactly minOccurrences
occurrences yield exactly one diagnostic, for the longest qualifying prefix of
the hierarchy (the full chain), anchored at the first occurrence and carrying
the reached count. -/
theorem thresholdBoundary (minOcc : Nat) (hmin : 2 ≤ minOcc) (s : Nat) (e : Expr)
    (ci : ChainInfo) (hci : analyzeChain e = some ci)
    (hwfdot : ∀ q ∈ ci.fullChain, '.' ∉ q.data)
    (hwfbr : ∀ q ∈ ci.fullChain, '[' ∉ q.data) :
    (runA minOcc initSt ((List.range (minOcc - 1)).map
        (fun t => Ev.occ s t e false))).diags = []
    ∧ (runA minOcc initSt ((List.range minOcc).map
        (fun t => Ev.occ s t e false))).diags
      = [⟨s, ci.fullChain, 0, minOcc⟩] := by
  obtain ⟨ps0, hparts, hlen2, hhier0, hfull⟩ := analyzeChain_spec e ci hci
  cases ps0 with
  | nil => simp at hlen2
  | cons p rest =>
    have hrest : rest ≠ [] := by
      intro h
      rw [h] at hlen2
      simp at hlen2
    have hps : ci.fullChain = p :: rest := hfull
    have hwfp : '.' ∉ p.data :=
      hwfdot p (by rw [hps]; exact List.mem_cons_self p rest)
    obtain ⟨r1a, r1b, r1c⟩ := runA_uniform_inv minOcc s e ci hci p rest hps hwfp
      hwfbr hrest (minOcc - 1) (by omega)
    refine ⟨r1b, ?_⟩
    have hm1 : minOcc = (minOcc - 1) + 1 := by omega
    have htrace : (List.range minOcc).map (fun t => Ev.occ s t e false)
        = (List.range (minOcc - 1)).map (fun t => Ev.occ s t e false)
          ++ [Ev.occ s (minOcc - 1) e false] := by
      conv_lhs => rw [hm1]
      rw [List.range_succ, List.map_append]
      rfl
    rw [htrace, runA_append]
    have hrun1 : ∀ st0 : St, runA minOcc st0 [Ev.occ s (minOcc - 1) e false]
        = stepA minOcc st0 (Ev.occ s (minOcc - 1) e false) := fun st0 => rfl
    rw [hrun1]
    obtain ⟨c1, c2⟩ := stepA_uniform_round minOcc s (minOcc - 1) e _ ci hci p rest
      hps hwfp hwfbr hrest r1a (minOcc - 1) (List.range (minOcc - 1)) r1c
    have hth : minOcc ≤ (minOcc - 1) + 1 := by omega
    rw [if_pos hth] at c2
    rw [c2.2, r1b]
    rw [← List.range_succ, ← hm1, hps]
    have hsucc : (minOcc - 1).succ = minOcc := by omega
    rw [hsucc]
    have hget : (List.range minOcc).getD 0 0 = 0 := by
      cases hm : minOcc with
      | zero => rfl
      | succ m => rw [List.range_succ_eq_map]; rfl
    rw [hget]
    rfl

theorem thresholdBoundary_witness :
    (runA 3 initSt ((List.range (3 - 1)).map
        (fun t => Ev.occ 7 t (.member (.ident "a") (.static "b")) false))).diags = []
    ∧ (runA 3 initSt ((List.range 3).map
        (fun t => Ev.occ 7 t (.member (.ident "a") (.static "b")) false))).diags
      = [⟨7, (⟨[["a"], ["a", "b"]], ["a", "b"]⟩ : ChainInfo).fullChain, 0, 3⟩] :=
  thresholdBoundary 3 (by decide) 7 (.member (.ident "a") (.static "b"))
    ⟨[["a"], ["a", "b"]], ["a", "b"]⟩ (by decide) (by decide) (by decide)

/-! ## Engine B lemmas -/

theorem runB_cons (minOcc : Nat) (st : StB) (ev : EvB) (rest : List EvB) :
    runB minOcc st (ev :: rest) = runB minOcc (stepB minOcc st ev) rest := rfl

theorem runB_append (minOcc : Nat) (st : StB) (l1 l2 : List EvB) :
    runB minOcc st (l1 ++ l2) = runB minOcc (runB minOcc st l1) l2 := by
  simp [runB, List.foldl_append]

theorem stepB_skip_none (minOcc : Nat) (st : StB) (ev : EvB)
    (h : getObjectChain ev.ancs ev.e = none) : stepB minOcc st ev = st := by
  rw [stepB]
  split_ifs with hpim
  · rfl
  · rw [h]

/-- C10: a member access occurring inside the test expression of a switch
case (the `SwitchCase` ancestor whose test contains the node) canonicalizes
to no chain at all, the listener leaves the state untouched, and the whole
run is as if the occurrence were absent — such occurrences are never counted
and never reported. -/
theorem switchTestExclusion (ancs : List Anc) (e : Expr)
    (h : Anc.switchTest ∈ ancs) :
    getObjectChain ancs e = none
    ∧ (∀ (minOcc : Nat) (st : StB) (s nid stmt : Nat) (pim : Bool),
        stepB minOcc st ⟨s, nid, stmt, ancs, e, pim⟩ = st)
    ∧ (∀ (minOcc : Nat) (st : StB) (evs1 evs2 : List EvB) (s nid stmt : Nat)
        (pim : Bool),
        runB minOcc st (evs1 ++ ⟨s, nid, stmt, ancs, e, pim⟩ :: evs2)
          = runB minOcc st (evs1 ++ evs2)) := by
  have hgoc : getObjectChain ancs e = none := by
    rw [getObjectChain, if_pos (List.elem_iff.mpr h)]
  have hstep : ∀ (minOcc : Nat) (st : StB) (s nid stmt : Nat) (pim : Bool),
      stepB minOcc st ⟨s, nid, stmt, ancs, e, pim⟩ = st :=
    fun minOcc st s nid stmt pim => stepB_skip_none minOcc st _ hgoc
  refine ⟨hgoc, hstep, ?_⟩
  intro minOcc st evs1 evs2 s nid stmt pim
  rw [runB_append, runB_append, runB_cons, hstep]

theorem switchTestExclusion_witness :
    getObjectChain [Anc.plain, Anc.switchTest]
        (.member (.member (.ident "ctx") (.static "data")) (.static "kind")) = none
    ∧ stepB 2 initStB ⟨0, 1, 0, [Anc.plain, Anc.switchTest],
        .member (.member (.ident "ctx") (.static "data")) (.static "kind"),
        false⟩ = initStB :=
  ⟨(switchTestExclusion [Anc.plain, Anc.switchTest]
      (.member (.member (.ident "ctx") (.static "data")) (.static "kind"))
      (by decide)).1,
   (switchTestExclusion [Anc.plain, Anc.switchTest]
      (.member (.member (.ident "ctx") (.static "data")) (.static "kind"))
      (by decide)).2.1 2 initStB 0 1 0 false⟩

/-- C7: when a diagnostic's fix is materialized, the binding name is the
deterministic sanitization of the chain text prefixed with an underscore
(e.g. `_ctx_data` for `ctx.data`); the declaration is inserted before the
statement of the first recorded occurrence exactly when no binding of that
name exists in the scope; exactly the recorded occurrences whose object text
still equals the chain text are rewritten and all others are skipped
silently; and a rewrite replaces only the object, leaving the trailing
member selector untouched. -/
theorem fixMaterialization (minOcc : Nat) (st : StB) (key : KeyB)
    (scopeVars : List String) (fx : FixB)
    (h : materializeFix minOcc st key scopeVars = some fx) :
    fx.varName = "_" ++ sanitize (chainBStr key.2)
    ∧ minOcc ≤ ((alookup st.chainNodes key).getD []).length
    ∧ fx.didInsert = !(scopeVars.contains ("_" ++ sanitize (chainBStr key.2)))
    ∧ (fx.didInsert = true →
        fx.insertBefore
          = (((alookup st.chainNodes key).getD []).head?).map (fun n => n.stmt))
    ∧ (fx.didInsert = false → fx.insertBefore = none)
    ∧ fx.replaced = ((alookup st.chainNodes key).getD []).filter
        (fun n => exprText (objectOf n.e) == chainBStr key.2)
    ∧ (∀ n ∈ (alookup st.chainNodes key).getD [],
        n ∉ fx.replaced → ¬ exprText (objectOf n.e) = chainBStr key.2)
    ∧ (∀ (obj : Expr) (k : PropKey),
        replaceObject fx.varName (.member obj k) = .member (.ident fx.varName) k)
    := by
  simp only [materializeFix] at h
  by_cases hlen : ((alookup st.chainNodes key).getD []).length < minOcc
  · rw [if_pos hlen] at h
    exact absurd h (by simp)
  · rw [if_neg hlen] at h
    have hfx := Option.some_inj.mp h
    subst hfx
    refine ⟨rfl, by omega, rfl, ?_, ?_, rfl, ?_, fun obj k => rfl⟩
    · intro hd
      simp only [Bool.not_eq_true'] at hd
      show (if scopeVars.contains ("_" ++ sanitize (chainBStr key.2)) = true
          then none
          else (((alookup st.chainNodes key).getD []).head?).map
            (fun n => n.stmt)) = _
      rw [hd]
      simp
    · intro hd
      simp only [Bool.not_eq_false'] at hd
      show (if scopeVars.contains ("_" ++ sanitize (chainBStr key.2)) = true
          then none
          else (((alookup st.chainNodes key).getD []).head?).map
            (fun n => n.stmt)) = none
      rw [hd]
      simp
    · intro n hn hnot htxt
      exact hnot (List.mem_filter.mpr ⟨hn, by simp [htxt]⟩)

theorem fixMaterialization_witness :
    (⟨"_ctx_data", true, some 5,
      [⟨0, 1, 5, [], .member (.member (.ident "ctx") (.static "data"))
          (.static "foo"), false⟩,
       ⟨0, 2, 6, [], .member (.member (.ident "ctx") (.static "data"))
          (.static "bar"), false⟩]⟩ : FixB).varName
      = "_" ++ sanitize (chainBStr ((0, ⟨"ctx", [Seg.dot "data"]⟩) : KeyB).2)
    ∧ (⟨"_ctx_data", true, some 5,
      [⟨0, 1, 5, [], .member (.member (.ident "ctx") (.static "data"))
          (.static "foo"), false⟩,
       ⟨0, 2, 6, [], .member (.member (.ident "ctx") (.static "data"))
          (.static "bar"), false⟩]⟩ : FixB).didInsert
      = !(([] : List String).contains
          ("_" ++ sanitize (chainBStr ((0, ⟨"ctx", [Seg.dot "data"]⟩) : KeyB).2))) :=
  ⟨(fixMaterialization 2
      ⟨[((0, ⟨"ctx", [Seg.dot "data"]⟩),
         [⟨0, 1, 5, [], .member (.member (.ident "ctx") (.static "data"))
             (.static "foo"), false⟩,
          ⟨0, 2, 6, [], .member (.member (.ident "ctx") (.static "data"))
             (.static "bar"), false⟩])],
        [((0, ⟨"ctx", [Seg.dot "data"]⟩), 2)], []⟩
      (0, ⟨"ctx", [Seg.dot "data"]⟩) []
      ⟨"_ctx_data", true, some 5,
        [⟨0, 1, 5, [], .member (.member (.ident "ctx") (.static "data"))
            (.static "foo"), false⟩,
         ⟨0, 2, 6, [], .member (.member (.ident "ctx") (.static "data"))
            (.static "bar"), false⟩]⟩ (by decide)).1,
   (fixMaterialization 2
      ⟨[((0, ⟨"ctx", [Seg.dot "data"]⟩),
         [⟨0, 1, 5, [], .member (.member (.ident "ctx") (.static "data"))
             (.static "foo"), false⟩,
          ⟨0, 2, 6, [], .member (.member (.ident "ctx") (.static "data"))
             (.static "bar"), false⟩])],
        [((0, ⟨"ctx", [Seg.dot "data"]⟩), 2)], []⟩
      (0, ⟨"ctx", [Seg.dot "data"]⟩) []
      ⟨"_ctx_data", true, some 5,
        [⟨0, 1, 5, [], .member (.member (.ident "ctx") (.static "data"))
            (.static "foo"), false⟩,
         ⟨0, 2, 6, [], .member (.member (.ident "ctx") (.static "data"))
            (.static "bar"), false⟩]⟩ (by decide)).2.2.1⟩

/-! ## C3: fix idempotence -/

/-- C3: counterexample — the fix is *not* idempotent on the code as written.
Two occurrences of `ctx!.data.v` canonicalize to the chain `ctx.data` and are
reported, but the materialized fix replaces nothing (the recorded object text
`ctx!.data` differs from the chain text `ctx.data`, so every occurrence is
skipped silently); it only inserts the declaration, whose initializer
`ctx.data` itself contributes no countable chain.  Re-running the engine on
the fixed source therefore reports the very same chain again, and
fix-and-rerun never converges for this input. -/
theorem fixIdempotence_cex :
    (runB 2 initStB
        [⟨0, 1, 10, [],
          .member (.member (.nonNull (.ident "ctx")) (.static "data"))
            (.static "v"), false⟩,
         ⟨0, 2, 11, [],
          .member (.member (.nonNull (.ident "ctx")) (.static "data"))
            (.static "v"), false⟩]).diags
      = [⟨0, ⟨"ctx", [Seg.dot "data"]⟩, 2, 2⟩]
    ∧ materializeFix 2
        (runB 2 initStB
          [⟨0, 1, 10, [],
            .member (.member (.nonNull (.ident "ctx")) (.static "data"))
              (.static "v"), false⟩,
           ⟨0, 2, 11, [],
            .member (.member (.nonNull (.ident "ctx")) (.static "data"))
              (.static "v"), false⟩])
        (0, ⟨"ctx", [Seg.dot "data"]⟩) []
      = some ⟨"_ctx_data", true, some 10, []⟩
    ∧ (runB 2 initStB
        (declEv 0 3 9 ⟨"ctx", [Seg.dot "data"]⟩
          :: [⟨0, 1, 10, [],
                .member (.member (.nonNull (.ident "ctx")) (.static "data"))
                  (.static "v"), false⟩,
              ⟨0, 2, 11, [],
                .member (.member (.nonNull (.ident "ctx")) (.static "data"))
                  (.static "v"), false⟩].map
            (applyFixEv 0 ⟨"ctx", [Seg.dot "data"]⟩ "_ctx_data"))).diags
      = [⟨0, ⟨"ctx", [Seg.dot "data"]⟩, 2, 2⟩] := by
  refine ⟨by decide, by decide, by decide⟩

theorem stepB_diag_new (minOcc : Nat) (st : StB) (ev : EvB) :
    ∀ dg ∈ (stepB minOcc st ev).diags, dg ∈ st.diags
      ∨ (ev.parentIsMember = false ∧ dg.scope = ev.s
          ∧ getObjectChain ev.ancs ev.e = some dg.chain) := by
  intro dg hdg
  simp only [stepB] at hdg
  split_ifs at hdg with hpim
  · exact Or.inl hdg
  · have hpim' : ev.parentIsMember = false := Bool.eq_false_iff.mpr hpim
    cases hgoc : getObjectChain ev.ancs ev.e with
    | none =>
      simp only [hgoc] at hdg
      exact Or.inl hdg
    | some c =>
      simp only [hgoc] at hdg
      split_ifs at hdg with hseg hcnt
      · exact Or.inl hdg
      · rcases List.mem_append.mp hdg with h | h
        · exact Or.inl h
        · rw [List.mem_singleton.mp h]
          exact Or.inr ⟨hpim', rfl, rfl⟩
      · exact Or.inl hdg

theorem runB_no_key_diag (minOcc : Nat) (s : Nat) (c : ChainB) (evs : List EvB) :
    ∀ st : StB,
      (∀ ev ∈ evs, ev.parentIsMember = false → ev.s = s →
          getObjectChain ev.ancs ev.e ≠ some c) →
      (∀ dg ∈ st.diags, ¬(dg.scope = s ∧ dg.chain = c)) →
      ∀ dg ∈ (runB minOcc st evs).diags, ¬(dg.scope = s ∧ dg.chain = c) := by
  induction evs with
  | nil => exact fun st _ h => h
  | cons ev rest ih =>
    intro st hevs hst
    rw [runB_cons]
    apply ih
    · exact fun ev' h' => hevs ev' (List.mem_cons_of_mem ev h')
    · intro dg hdg
      rcases stepB_diag_new minOcc st ev dg hdg with h | ⟨hpim, hsc, hch⟩
      · exact hst dg h
      · intro hand
        exact hevs ev (List.mem_cons_self ev rest) hpim (hsc.symm.trans hand.1)
          (hch.trans (congrArg some hand.2))

theorem looksCapitalized_underscore (x : String) :
    looksCapitalized ("_" ++ x) = true := by
  have hd : ("_" ++ x).data = '_' :: x.data := by rw [String.data_append]; rfl
  simp only [looksCapitalized, hd]
  decide

theorem walkB_chainToExpr (root : String) :
    ∀ (init : List Seg) (pending : Seg) (path : List Seg),
      walkB (chainToExpr ⟨root, init⟩) pending path = none
      ∨ walkB (chainToExpr ⟨root, init⟩) pending path
          = some ⟨root, (init ++ pending :: path).dropLast⟩ := by
  intro init
  induction init using List.reverseRecOn with
  | nil =>
    intro pending path
    by_cases hr : root = "this"
    · have hbase : chainToExpr ⟨root, []⟩ = Expr.thisExpr := by
        simp [chainToExpr, hr]
      rw [hbase]
      simp only [walkB]
      split_ifs with hlen
      · exact Or.inl rfl
      · right
        rw [hr]
        rfl
    · have hbase : chainToExpr ⟨root, []⟩ = Expr.ident root := by
        simp [chainToExpr, hr]
      rw [hbase]
      simp only [walkB]
      split_ifs with hcap
      · exact Or.inl rfl
      · exact Or.inr rfl
  | append_singleton l x ih =>
    intro pending path
    cases x with
    | dot n =>
      have hsplit : chainToExpr ⟨root, l ++ [Seg.dot n]⟩
          = Expr.member (chainToExpr ⟨root, l⟩) (PropKey.static n) := by
        simp [chainToExpr]
      rw [hsplit]
      simp only [walkB]
      rcases ih (Seg.dot n) (pending :: path) with h | h
      · exact Or.inl h
      · right
        rw [h]
        simp
    | idx lit =>
      have hsplit : chainToExpr ⟨root, l ++ [Seg.idx lit]⟩
          = Expr.member (chainToExpr ⟨root, l⟩) (PropKey.litIndex lit) := by
        simp [chainToExpr]
      rw [hsplit]
      simp only [walkB]
      rcases ih (Seg.idx lit) (pending :: path) with h | h
      · exact Or.inl h
      · right
        rw [h]
        simp

theorem getObjectChain_chainToExpr (c : ChainB) (hsegs : c.segs ≠ []) :
    getObjectChain [] (chainToExpr c) ≠ some c := by
  obtain ⟨root, segs⟩ := c
  simp only [] at hsegs
  obtain ⟨init, x, hix⟩ : ∃ init x, segs = init ++ [x] := by
    rcases List.eq_nil_or_concat segs with h | ⟨init, x, h⟩
    · exact absurd h hsegs
    · exact ⟨init, x, by rw [h, List.concat_eq_append]⟩
  subst hix
  show entryWalk (chainToExpr ⟨root, init ++ [x]⟩) ≠ some ⟨root, init ++ [x]⟩
  cases x with
  | dot n =>
    have hsplit : chainToExpr ⟨root, init ++ [Seg.dot n]⟩
        = Expr.member (chainToExpr ⟨root, init⟩) (PropKey.static n) := by
      simp [chainToExpr]
    rw [hsplit]
    simp only [entryWalk]
    rcases walkB_chainToExpr root init (Seg.dot n) [] with h | h
    · rw [h]
      simp
    · rw [h]
      intro heq
      have h2 := Option.some_inj.mp heq
      have h3 := congrArg ChainB.segs h2
      simp only [] at h3
      rw [List.dropLast_concat] at h3
      have h4 := congrArg List.length h3
      simp at h4
  | idx lit =>
    have hsplit : chainToExpr ⟨root, init ++ [Seg.idx lit]⟩
        = Expr.member (chainToExpr ⟨root, init⟩) (PropKey.litIndex lit) := by
      simp [chainToExpr]
    rw [hsplit]
    simp only [entryWalk]
    rcases walkB_chainToExpr root init (Seg.idx lit) [] with h | h
    · rw [h]
      simp
    · rw [h]
      intro heq
      have h2 := Option.some_inj.mp heq
      have h3 := congrArg ChainB.segs h2
      simp only [] at h3
      rw [List.dropLast_concat] at h3
      have h4 := congrArg List.length h3
      simp at h4

/-- C3 (amended): fix idempotence holds under the premise the spec's
convergence argument implicitly relies on — every occurrence of the chain is
recorded with an object text that still equals the chain text (so none is
skipped by the rewrite guard).  Then applying the fix (replacing each such
occurrence's object with the generated binding name and inserting the
declaration) and re-running the engine produces zero diagnostics for that
scope-and-chain pair: the rewritten occurrences' chains now start at the
`_`-prefixed binding, which the capitalized-base heuristic rejects, and
the inserted declaration's initializer contributes no countable chain. -/
theorem fixIdempotenceAmended (minOcc : Nat) (s : Nat) (c : ChainB)
    (hsegs : c.segs ≠ []) (v : String) (hv : v = "_" ++ sanitize (chainBStr c))
    (dnid dstmt : Nat) (evs : List EvB)
    (hmem : ∀ ev ∈ evs, ev.e.isMember = true)
    (htext : ∀ ev ∈ evs, ev.parentIsMember = false → ev.s = s →
        getObjectChain ev.ancs ev.e = some c →
        exprText (objectOf ev.e) = chainBStr c) :
    ((runB minOcc initStB
        (declEv s dnid dstmt c :: evs.map (applyFixEv s c v))).diags.filter
      (fun dg => dg.scope == s && dg.chain == c)) = [] := by
  have hkey : ∀ dg ∈ (runB minOcc initStB
      (declEv s dnid dstmt c :: evs.map (applyFixEv s c v))).diags,
      ¬(dg.scope = s ∧ dg.chain = c) := by
    refine runB_no_key_diag minOcc s c _ initStB ?_
      (fun dg hdg => absurd hdg (by simp [initStB]))
    intro ev hev hpim hs
    rcases List.mem_cons.mp hev with h | h
    · subst h
      show getObjectChain [] (chainToExpr c) ≠ some c
      exact getObjectChain_chainToExpr c hsegs
    · obtain ⟨ev0, hev0, hmap⟩ := List.mem_map.mp h
      subst hmap
      by_cases hcond : (!ev0.parentIsMember && ev0.s == s
          && getObjectChain ev0.ancs ev0.e == some c
          && exprText (objectOf ev0.e) == chainBStr c) = true
      · have happ : applyFixEv s c v ev0 = { ev0 with e := replaceObject v ev0.e } := by
          rw [applyFixEv, if_pos hcond]
        rw [happ]
        show getObjectChain ev0.ancs (replaceObject v ev0.e) ≠ some c
        have hm := hmem ev0 hev0
        cases he : ev0.e with
        | ident n => rw [he] at hm; simp [Expr.isMember] at hm
        | thisExpr => rw [he] at hm; simp [Expr.isMember] at hm
        | nonNull e1 => rw [he] at hm; simp [Expr.isMember] at hm
        | call c1 a1 => rw [he] at hm; simp [Expr.isMember] at hm
        | other s1 => rw [he] at hm; simp [Expr.isMember] at hm
        | member obj k =>
          show getObjectChain ev0.ancs (.member (.ident v) k) ≠ some c
          rw [getObjectChain]
          split_ifs with hsw
          · simp
          · cases k with
            | static n =>
              show walkB (.ident v) (Seg.dot n) [] ≠ some c
              simp only [walkB]
              rw [hv, looksCapitalized_underscore]
              simp
            | litIndex l =>
              show walkB (.ident v) (Seg.idx l) [] ≠ some c
              simp only [walkB]
              rw [hv, looksCapitalized_underscore]
              simp
            | dynamic d => simp [entryWalk]
      · have happ : applyFixEv s c v ev0 = ev0 := by
          rw [applyFixEv, if_neg hcond]
        rw [happ] at hpim hs ⊢
        intro hgoc
        have ht := htext ev0 hev0 hpim hs hgoc
        apply hcond
        simp [hpim, hs, hgoc, ht]
  refine List.filter_eq_nil_iff.mpr ?_
  intro dg hdg
  have hk := hkey dg hdg
  simp only [Bool.and_eq_true, beq_iff_eq]
  exact fun hb => hk ⟨hb.1, hb.2⟩

theorem fixIdempotenceAmended_witness :
    ((runB 2 initStB (declEv 0 9 0 ⟨"ctx", [Seg.dot "data"]⟩
        :: ([⟨0, 1, 5, [],
              .member (.member (.ident "ctx") (.static "data")) (.static "foo"),
              false⟩,
             ⟨0, 2, 6, [],
              .member (.member (.ident "ctx") (.static "data")) (.static "bar"),
              false⟩] : List EvB).map
          (applyFixEv 0 ⟨"ctx", [Seg.dot "data"]⟩ "_ctx_data"))).diags.filter
      (fun dg => dg.scope == 0 && dg.chain == (⟨"ctx", [Seg.dot "data"]⟩ : ChainB)))
    = [] :=
  fixIdempotenceAmended 2 0 ⟨"ctx", [Seg.dot "data"]⟩ (by decide) "_ctx_data"
    (by decide) 9 0
    [⟨0, 1, 5, [],
       .member (.member (.ident "ctx") (.static "data")) (.static "foo"), false⟩,
     ⟨0, 2, 6, [],
       .member (.member (.ident "ctx") (.static "data")) (.static "bar"), false⟩]
    (by decide) (by decide)
